import Mathlib

/-!
Verification of the json-schema-form repository: a shallow embedding of the
layout utilities (src/utils/layout.ts), the rule-expression interpreter, the
conditional schema resolver, the schema validator, the error-path reconciler
and the field-tree builder, together with theorems settling the frozen claims.

JavaScript values are embedded as the mutual inductive family `JSValue`
(scalars, ordered arrays, insertion-ordered string-keyed objects).  Machine
floats are modelled as rationals: the only numeric operations the verified
code performs are equality, ordering against small integers and
Number.isInteger, on which the two agree for the representable inputs.
-/

namespace JSF

mutual

/-- A JavaScript value: undefined, null, boolean, number, string, array or
object.  Objects are insertion-ordered association lists. -/
inductive JSValue where
  | undefV
  | null
  | bool (b : Bool)
  | num (q : ℚ)
  | str (s : String)
  | arr (elems : JSList)
  | obj (fields : JSObj)

/-- A list of JavaScript values (array elements in order). -/
inductive JSList where
  | nil
  | cons (hd : JSValue) (tl : JSList)

/-- The fields of a JavaScript object, in insertion order. -/
inductive JSObj where
  | nil
  | cons (key : String) (val : JSValue) (tl : JSObj)

end

mutual

/-- Structural (deep) equality of JavaScript values, as a boolean. -/
def jsEq : JSValue → JSValue → Bool
  | .undefV, .undefV => true
  | .null, .null => true
  | .bool a, .bool b => a == b
  | .num a, .num b => a == b
  | .str a, .str b => a == b
  | .arr a, .arr b => jsListEq a b
  | .obj a, .obj b => jsObjEq a b
  | _, _ => false

/-- Deep equality of value lists. -/
def jsListEq : JSList → JSList → Bool
  | .nil, .nil => true
  | .cons a as, .cons b bs => jsEq a b && jsListEq as bs
  | _, _ => false

/-- Deep equality of object field lists (keys and order included). -/
def jsObjEq : JSObj → JSObj → Bool
  | .nil, .nil => true
  | .cons k a as, .cons k2 b bs => k == k2 && jsEq a b && jsObjEq as bs
  | _, _ => false

end

mutual

/-- Decidable propositional equality for JavaScript values. -/
def jsValueDecEq : (a b : JSValue) → Decidable (a = b)
  | .undefV, .undefV => .isTrue rfl
  | .null, .null => .isTrue rfl
  | .bool a, .bool b =>
      match decEq a b with
      | .isTrue h => .isTrue (by rw [h])
      | .isFalse h => .isFalse (by intro he; injection he; contradiction)
  | .num a, .num b =>
      match decEq a b with
      | .isTrue h => .isTrue (by rw [h])
      | .isFalse h => .isFalse (by intro he; injection he; contradiction)
  | .str a, .str b =>
      match decEq a b with
      | .isTrue h => .isTrue (by rw [h])
      | .isFalse h => .isFalse (by intro he; injection he; contradiction)
  | .arr a, .arr b =>
      match jsListDecEq a b with
      | .isTrue h => .isTrue (by rw [h])
      | .isFalse h => .isFalse (by intro he; injection he; contradiction)
  | .obj a, .obj b =>
      match jsObjDecEq a b with
      | .isTrue h => .isTrue (by rw [h])
      | .isFalse h => .isFalse (by intro he; injection he; contradiction)
  | .undefV, .null | .undefV, .bool _ | .undefV, .num _ | .undefV, .str _
  | .undefV, .arr _ | .undefV, .obj _
  | .null, .undefV | .null, .bool _ | .null, .num _ | .null, .str _
  | .null, .arr _ | .null, .obj _
  | .bool _, .undefV | .bool _, .null | .bool _, .num _ | .bool _, .str _
  | .bool _, .arr _ | .bool _, .obj _
  | .num _, .undefV | .num _, .null | .num _, .bool _ | .num _, .str _
  | .num _, .arr _ | .num _, .obj _
  | .str _, .undefV | .str _, .null | .str _, .bool _ | .str _, .num _
  | .str _, .arr _ | .str _, .obj _
  | .arr _, .undefV | .arr _, .null | .arr _, .bool _ | .arr _, .num _
  | .arr _, .str _ | .arr _, .obj _
  | .obj _, .undefV | .obj _, .null | .obj _, .bool _ | .obj _, .num _
  | .obj _, .str _ | .obj _, .arr _ => .isFalse (fun h => by injection h)

/-- Decidable propositional equality for value lists. -/
def jsListDecEq : (a b : JSList) → Decidable (a = b)
  | .nil, .nil => .isTrue rfl
  | .cons a as, .cons b bs =>
      match jsValueDecEq a b, jsListDecEq as bs with
      | .isTrue h1, .isTrue h2 => .isTrue (by rw [h1, h2])
      | .isFalse h1, _ => .isFalse (by intro he; injection he; contradiction)
      | _, .isFalse h2 => .isFalse (by intro he; injection he; contradiction)
  | .nil, .cons _ _ => .isFalse (fun h => by injection h)
  | .cons _ _, .nil => .isFalse (fun h => by injection h)

/-- Decidable propositional equality for object field lists. -/
def jsObjDecEq : (a b : JSObj) → Decidable (a = b)
  | .nil, .nil => .isTrue rfl
  | .cons k a as, .cons k2 b bs =>
      match decEq k k2, jsValueDecEq a b, jsObjDecEq as bs with
      | .isTrue h0, .isTrue h1, .isTrue h2 => .isTrue (by rw [h0, h1, h2])
      | .isFalse h0, _, _ => .isFalse (by intro he; injection he; contradiction)
      | _, .isFalse h1, _ => .isFalse (by intro he; injection he; contradiction)
      | _, _, .isFalse h2 => .isFalse (by intro he; injection he; contradiction)
  | .nil, .cons _ _ _ => .isFalse (fun h => by injection h)
  | .cons _ _ _, .nil => .isFalse (fun h => by injection h)

end

instance : DecidableEq JSValue := jsValueDecEq

instance : DecidableEq JSList := jsListDecEq

instance : DecidableEq JSObj := jsObjDecEq

/-- JavaScript truthiness: undefined, null, false, 0 and the empty string are
falsy; every object and array is truthy.  (NaN is outside the model.) -/
def jsTruthy : JSValue → Bool
  | .undefV => false
  | .null => false
  | .bool b => b
  | .num q => q != 0
  | .str s => s ≠ ""
  | .arr _ => true
  | .obj _ => true

/-- Whether `typeof v === 'object'` holds: true for null, arrays and objects. -/
def typeofIsObject : JSValue → Bool
  | .null => true
  | .arr _ => true
  | .obj _ => true
  | _ => false

/-- Whether `typeof v === 'number'` holds. -/
def typeofIsNumber : JSValue → Bool
  | .num _ => true
  | _ => false

/-- Whether `typeof v === 'string'` holds. -/
def typeofIsString : JSValue → Bool
  | .str _ => true
  | _ => false

/-- Whether the value is exactly `undefined`. -/
def isUndefV : JSValue → Bool
  | .undefV => true
  | _ => false

/-- First binding of `k` in an object field list, if any. -/
def objLookup : JSObj → String → Option JSValue
  | .nil, _ => none
  | .cons k v tl, key => if k = key then some v else objLookup tl key

/-- Whether the object field list binds the key. -/
def objHasKey : JSObj → String → Bool
  | .nil, _ => false
  | .cons k _ tl, key => k = key || objHasKey tl key

/-- Array elements viewed as object fields keyed by their canonical decimal
index, starting at `i` — the own-property view JavaScript gives an array. -/
def indexFields (i : ℕ) : JSList → JSObj
  | .nil => .nil
  | .cons v tl => .cons (toString i) v (indexFields (i + 1) tl)

/-- The own properties of a value: the fields of an object, the indexed
elements of an array, nothing otherwise. -/
def ownFields : JSValue → JSObj
  | .obj o => o
  | .arr l => indexFields 0 l
  | _ => .nil

/-- Property access `v[k]`: the bound value, or undefined when absent.  All
verified call sites guard against null/undefined receivers first. -/
def getProp (v : JSValue) (k : String) : JSValue :=
  match objLookup (ownFields v) k with
  | some w => w
  | none => .undefV

/-- Whether `v` has own property `k` (present even if bound to undefined). -/
def hasProp (v : JSValue) (k : String) : Bool :=
  objHasKey (ownFields v) k

/-- Concatenation of object field lists. -/
def objAppend : JSObj → JSObj → JSObj
  | .nil, b => b
  | .cons k v tl, b => .cons k v (objAppend tl b)

/-- The fields of `a` whose keys `b` does not bind. -/
def objRemoveKeysOf : JSObj → JSObj → JSObj
  | .nil, _ => .nil
  | .cons k v tl, b =>
      if objHasKey b k then objRemoveKeysOf tl b
      else .cons k v (objRemoveKeysOf tl b)

/-- The object spread `{...a, ...b}`: the own properties of `b` override those
of `a`; keys only in `a` keep the values `a` gives them. -/
def spreadMerge (a b : JSValue) : JSValue :=
  .obj (objAppend (objRemoveKeysOf (ownFields a) (ownFields b)) (ownFields b))

/-! ## Layout utilities, embedded from src/utils/layout.ts -/

/-- `DEFAULT_LAYOUT_CONFIG` from src/utils/layout.ts:
`{ type: 'columns', columns: 1, gap: '16px' }`. -/
def DEFAULT_LAYOUT_CONFIG : JSValue :=
  .obj (.cons "type" (.str "columns")
    (.cons "columns" (.num 1)
      (.cons "gap" (.str "16px") .nil)))

/-- The breakpoint keys `['sm', 'md', 'lg', 'xl']` used by the layout code. -/
def responsiveKeys : List String := ["sm", "md", "lg", "xl"]

/-- Whether a value is an integer number at least 1 — the test
`Number.isInteger(v) && !(v < 1)` that guards columns and spans. -/
def isIntegerGeOne : JSValue → Bool
  | .num q => q.den == 1 && 1 ≤ q
  | _ => false

/-- The `layout.type` check of isValidLayoutConfig: fail iff the value is
truthy and different from the string 'columns'. -/
def checkLayoutType (v : JSValue) : Bool :=
  !(jsTruthy v && !jsEq v (.str "columns"))

/-- The `layout.columns` check: fail iff defined and not an integer ≥ 1. -/
def checkLayoutColumns (v : JSValue) : Bool :=
  !(!isUndefV v && !isIntegerGeOne v)

/-- The `layout.gap` check: fail iff truthy and not a string. -/
def checkLayoutGap (v : JSValue) : Bool :=
  !(jsTruthy v && !typeofIsString v)

/-- The per-breakpoint check applied to a responsive object: each of
sm/md/lg/xl must be undefined or an integer ≥ 1. -/
def checkResponsiveObject (r : JSValue) : Bool :=
  responsiveKeys.all fun k => isUndefV (getProp r k) || isIntegerGeOne (getProp r k)

/-- The `layout.responsive` check: validated only when truthy. -/
def checkLayoutResponsive (v : JSValue) : Bool :=
  !jsTruthy v || checkResponsiveObject v

/-- The check applied to each of colSpan/colStart/colEnd: undefined, or an
integer ≥ 1, or a non-null object validated per breakpoint; anything else
(string, boolean, null, ...) is rejected. -/
def checkColProp (v : JSValue) : Bool :=
  if isUndefV v then true
  else
    match v with
    | .num q => q.den == 1 && 1 ≤ q
    | .arr _ => checkResponsiveObject v
    | .obj _ => checkResponsiveObject v
    | _ => false

/-- `isValidLayoutConfig` from src/utils/layout.ts, written as the conjunction
of its early-return guards in source order. -/
def isValidLayoutConfig (layout : JSValue) : Bool :=
  (jsTruthy layout && typeofIsObject layout)
    && checkLayoutType (getProp layout "type")
    && checkLayoutColumns (getProp layout "columns")
    && checkLayoutGap (getProp layout "gap")
    && checkLayoutResponsive (getProp layout "responsive")
    && (["colSpan", "colStart", "colEnd"].all fun p => checkColProp (getProp layout p))

/-- `normalizeLayoutConfig` from src/utils/layout.ts: the defaults when the
input is falsy or invalid, otherwise `{...DEFAULT_LAYOUT_CONFIG, ...layout}`. -/
def normalizeLayoutConfig (layout : JSValue) : JSValue :=
  if !jsTruthy layout || !isValidLayoutConfig layout then DEFAULT_LAYOUT_CONFIG
  else spreadMerge DEFAULT_LAYOUT_CONFIG layout

/-- `getFieldLayoutInfo` from src/utils/layout.ts: `field.layout || null`. -/
def getFieldLayoutInfo (field : JSValue) : JSValue :=
  if jsTruthy (getProp field "layout") then getProp field "layout" else .null

/-- `getRootLayoutInfo` from src/utils/layout.ts: `field._rootLayout || null`. -/
def getRootLayoutInfo (field : JSValue) : JSValue :=
  if jsTruthy (getProp field "_rootLayout") then getProp field "_rootLayout" else .null

/-- `getFormContainerLayout` from src/utils/layout.ts: null on an empty field
list, otherwise the root layout info of the first field. -/
def getFormContainerLayout : List JSValue → JSValue
  | [] => .null
  | f :: _ => getRootLayoutInfo f

/-! ## Supporting lemmas for the layout claims -/

theorem objLookup_append : ∀ (a b : JSObj) (k : String),
    objLookup (objAppend a b) k =
      match objLookup a k with
      | some v => some v
      | none => objLookup b k
  | .nil, b, k => by simp [objAppend, objLookup]
  | .cons k2 v tl, b, k => by
      by_cases h : k2 = k <;>
        simp [objAppend, objLookup, h, objLookup_append tl b k]

theorem objLookup_removeKeysOf_of_hasKey : ∀ (a b : JSObj) (k : String),
    objHasKey b k = true →
    objLookup (objRemoveKeysOf a b) k = none
  | .nil, b, k, _ => by simp [objRemoveKeysOf, objLookup]
  | .cons k2 v tl, b, k, h => by
      by_cases hk : objHasKey b k2
      · simpa [objRemoveKeysOf, hk] using
          objLookup_removeKeysOf_of_hasKey tl b k h
      · have hne : k2 ≠ k := by
          intro he; subst he; exact hk h
        simp [objRemoveKeysOf, hk, objLookup, hne,
          objLookup_removeKeysOf_of_hasKey tl b k h]

theorem objLookup_removeKeysOf_of_not_hasKey : ∀ (a b : JSObj) (k : String),
    objHasKey b k = false →
    objLookup (objRemoveKeysOf a b) k = objLookup a k
  | .nil, _, _, _ => by simp [objRemoveKeysOf]
  | .cons k2 v tl, b, k, h => by
      by_cases he : k2 = k
      · subst he
        simp [objRemoveKeysOf, h, objLookup]
      · by_cases hk : objHasKey b k2 <;>
          simp [objRemoveKeysOf, objLookup, hk, he,
            objLookup_removeKeysOf_of_not_hasKey tl b k h]

/-- Property lookup in a spread `{...a, ...b}`: the value from `b` when `b`
binds the key, else the value from `a`. -/
theorem ownFields_obj (o : JSObj) : ownFields (.obj o) = o := rfl

/-- A key an object field list does not bind looks up to none. -/
theorem objLookup_eq_none_of_not_hasKey : ∀ (a : JSObj) (k : String),
    objHasKey a k = false → objLookup a k = none
  | .nil, _, _ => by simp [objLookup]
  | .cons k2 v tl, k, h => by
      simp only [objHasKey, Bool.or_eq_false_iff] at h
      have hne : k2 ≠ k := by simpa [decide_eq_false_iff_not] using h.1
      simp [objLookup, hne, objLookup_eq_none_of_not_hasKey tl k h.2]

theorem getProp_spreadMerge (a b : JSValue) (k : String) :
    getProp (spreadMerge a b) k =
      if hasProp b k then getProp b k else getProp a k := by
  simp only [spreadMerge, getProp, hasProp, ownFields_obj, objLookup_append]
  by_cases h : objHasKey (ownFields b) k
  · rw [objLookup_removeKeysOf_of_hasKey _ _ _ h]
    simp [h]
  · rw [objLookup_removeKeysOf_of_not_hasKey _ _ _ (by simpa using h)]
    simp only [h, if_false]
    have hb := objLookup_eq_none_of_not_hasKey (ownFields b) k (by simpa using h)
    cases objLookup (ownFields a) k <;> simp [hb]

/-- A per-key check that holds on the value a key has in `v` and on the value
it has in the defaults holds on the value it has in their spread. -/
theorem check_spreadMerge_default (v : JSValue) (k : String)
    (check : JSValue → Bool)
    (hv : check (getProp v k) = true)
    (hd : check (getProp DEFAULT_LAYOUT_CONFIG k) = true) :
    check (getProp (spreadMerge DEFAULT_LAYOUT_CONFIG v) k) = true := by
  rw [getProp_spreadMerge]
  by_cases hp : hasProp v k = true
  · simpa [hp] using hv
  · simpa [hp] using hd

/-! ## Claims C9 and C10 (layout utilities) -/

/-- C9, counterexample: the input `{type: undefined}` passes
isValidLayoutConfig (a truthy `type` is never checked), so
normalizeLayoutConfig spreads it over the defaults and the explicit
`undefined` overrides the default `'columns'` — the result does not have
`type` defined, contradicting the claim that the output always has type,
columns and gap defined. -/
theorem C9_normalize_type_undef_counterexample :
    isValidLayoutConfig (.obj (.cons "type" .undefV .nil)) = true ∧
    getProp (normalizeLayoutConfig (.obj (.cons "type" .undefV .nil))) "type"
      = .undefV := by
  constructor <;> rfl

/-- C9 (amended): normalizeLayoutConfig always returns a configuration
satisfying isValidLayoutConfig; it returns exactly DEFAULT_LAYOUT_CONFIG when
the input is invalid (in particular when it is undefined), and otherwise the
input spread over those defaults; type, columns and gap are defined in the
result whenever the input does not itself bind them to undefined. -/
theorem C9_normalizeLayoutConfig_amended (v : JSValue) :
    isValidLayoutConfig (normalizeLayoutConfig v) = true
    ∧ (isValidLayoutConfig v = false →
        normalizeLayoutConfig v = DEFAULT_LAYOUT_CONFIG)
    ∧ (isValidLayoutConfig v = true →
        normalizeLayoutConfig v = spreadMerge DEFAULT_LAYOUT_CONFIG v)
    ∧ (∀ k ∈ ["type", "columns", "gap"],
        (hasProp v k = true → getProp v k ≠ .undefV) →
        getProp (normalizeLayoutConfig v) k ≠ .undefV) := by
  have hdef : isValidLayoutConfig DEFAULT_LAYOUT_CONFIG = true := by decide
  by_cases hv : isValidLayoutConfig v = true
  · have htr : jsTruthy v = true := by
      have := hv
      simp only [isValidLayoutConfig, Bool.and_eq_true] at this
      exact this.1.1.1.1.1.1
    have hnorm : normalizeLayoutConfig v = spreadMerge DEFAULT_LAYOUT_CONFIG v := by
      simp [normalizeLayoutConfig, htr, hv]
    have hconj := hv
    simp only [isValidLayoutConfig, Bool.and_eq_true, List.all_cons,
      List.all_nil, Bool.and_true] at hconj
    obtain ⟨⟨⟨⟨⟨_, hty⟩, hcol⟩, hgap⟩, hresp⟩, hspan, hstart, hend⟩ := hconj
    have hvalid : isValidLayoutConfig (spreadMerge DEFAULT_LAYOUT_CONFIG v) = true := by
      simp only [isValidLayoutConfig, Bool.and_eq_true, List.all_cons,
        List.all_nil, Bool.and_true]
      refine ⟨⟨⟨⟨⟨⟨rfl, rfl⟩, ?_⟩, ?_⟩, ?_⟩, ?_⟩, ?_, ?_, ?_⟩
      · exact check_spreadMerge_default v _ _ hty (by decide)
      · exact check_spreadMerge_default v _ _ hcol (by decide)
      · exact check_spreadMerge_default v _ _ hgap (by decide)
      · exact check_spreadMerge_default v _ _ hresp (by decide)
      · exact check_spreadMerge_default v _ _ hspan (by decide)
      · exact check_spreadMerge_default v _ _ hstart (by decide)
      · exact check_spreadMerge_default v _ _ hend (by decide)
    refine ⟨hnorm ▸ hvalid, fun hc => by simp [hv] at hc, fun _ => hnorm, ?_⟩
    intro k hk hud
    rw [hnorm, getProp_spreadMerge]
    by_cases hp : hasProp v k = true
    · simpa [hp] using hud hp
    · simp only [hp]
      fin_cases hk <;> simp <;> decide
  · have hnorm : normalizeLayoutConfig v = DEFAULT_LAYOUT_CONFIG := by
      simp only [normalizeLayoutConfig]
      have : isValidLayoutConfig v = false := by
        simpa using hv
      simp [this]
    refine ⟨hnorm ▸ hdef, fun _ => hnorm, fun hc => absurd hc hv, ?_⟩
    intro k hk _
    rw [hnorm]
    fin_cases hk <;> decide

/-- C9, witness for the amended theorem at the concrete valid input
`{columns: 2}`. -/
theorem C9_witness :
    isValidLayoutConfig (.obj (.cons "columns" (.num 2) .nil)) = true ∧
    normalizeLayoutConfig (.obj (.cons "columns" (.num 2) .nil))
      = spreadMerge DEFAULT_LAYOUT_CONFIG (.obj (.cons "columns" (.num 2) .nil)) :=
  ⟨by decide,
    (C9_normalizeLayoutConfig_amended
      (.obj (.cons "columns" (.num 2) .nil))).2.2.1 (by decide)⟩

/-- C10: getFormContainerLayout returns null on an empty field list; on a
non-empty list it returns the root layout info of the first field — the
stored `_rootLayout` when that field has one (an object value), null when the
field lacks one — and the result never depends on fields past the first. -/
theorem C10_getFormContainerLayout (f : JSValue) (rest r1 r2 : List JSValue) :
    getFormContainerLayout ([] : List JSValue) = .null
    ∧ getFormContainerLayout (f :: rest) = getRootLayoutInfo f
    ∧ (∀ o : JSObj, getProp f "_rootLayout" = .obj o →
        getFormContainerLayout (f :: rest) = .obj o)
    ∧ (getProp f "_rootLayout" = .undefV →
        getFormContainerLayout (f :: rest) = .null)
    ∧ getFormContainerLayout (f :: r1) = getFormContainerLayout (f :: r2) := by
  refine ⟨rfl, rfl, ?_, ?_, rfl⟩
  · intro o ho
    simp [getFormContainerLayout, getRootLayoutInfo, ho, jsTruthy]
  · intro ho
    simp [getFormContainerLayout, getRootLayoutInfo, ho, jsTruthy]

/-- C10, witness at a concrete two-field list whose first field stores a root
layout object. -/
theorem C10_witness :
    getFormContainerLayout
      [.obj (.cons "_rootLayout" (.obj (.cons "columns" (.num 2) .nil))
        (.cons "name" (.str "a") .nil)),
       .obj (.cons "name" (.str "b") .nil)]
      = .obj (.cons "columns" (.num 2) .nil) :=
  (C10_getFormContainerLayout
    (.obj (.cons "_rootLayout" (.obj (.cons "columns" (.num 2) .nil))
      (.cons "name" (.str "a") .nil)))
    [.obj (.cons "name" (.str "b") .nil)] [] []).2.2.1
    (.cons "columns" (.num 2) .nil) (by decide)

/-! ## Error paths and the Error Path Reconciler

The reconciler itself is not part of the sources under src/ (only its callers
and output types are), so it is modelled from the spec below. -/

/-- A segment of a validation-error path: a string segment (keyword marker or
property name) or a numeric index. -/
inductive PathSeg where
  | key (s : String)
  | idx (n : ℕ)
  deriving DecidableEq, Repr

/-- The composition keywords `allOf`, `anyOf`, `oneOf`. -/
def isCompositionKw (s : String) : Bool :=
  s = "allOf" || s = "anyOf" || s = "oneOf"

/-- Modelled from the spec: the Error Path Reconciler path rewriting (§4.5),
which is not under src/.  Walking the raw schema-shaped path: a `properties`
marker is consumed and the property-name segment after it is kept as the
addressing unit; a composition keyword (`allOf`/`anyOf`/`oneOf`) is dropped
together with the branch index that follows it; a conditional keyword
(`then`/`else`) is dropped; an array-items marker `items` is dropped while the
numeric index following it is preserved; all other segments are kept. -/
def reconcilePath : List PathSeg → List PathSeg
  | [] => []
  | [.key s] =>
      if s = "properties" ∨ isCompositionKw s ∨ s = "then" ∨ s = "else" ∨ s = "items"
      then [] else [.key s]
  | .key s :: .key s2 :: rest =>
      if s = "properties" then .key s2 :: reconcilePath rest
      else if isCompositionKw s ∨ s = "then" ∨ s = "else" ∨ s = "items" then
        reconcilePath (.key s2 :: rest)
      else .key s :: reconcilePath (.key s2 :: rest)
  | .key s :: .idx n :: rest =>
      if isCompositionKw s then reconcilePath rest
      else if s = "properties" ∨ s = "then" ∨ s = "else" ∨ s = "items" then
        reconcilePath (.idx n :: rest)
      else .key s :: reconcilePath (.idx n :: rest)
  | .idx n :: rest => .idx n :: reconcilePath rest

/-! ## Claim C2 (error path reconciliation) -/

/-- C2: the reconciler drops composition-keyword segments (with their branch
index) and conditional-keyword segments, drops `items` marker segments while
preserving the numeric index that follows, keeps the property names addressed
by `properties` markers and keeps index segments; in particular the two raw
paths of the claim reconcile to `["address","zip"]` and `["items",2,"email"]`. -/
theorem C2_reconcilePath :
    reconcilePath [.key "properties", .key "address", .key "allOf", .idx 0,
        .key "properties", .key "zip"]
      = [.key "address", .key "zip"]
    ∧ reconcilePath [.key "properties", .key "items", .key "items", .idx 2,
        .key "properties", .key "email"]
      = [.key "items", .idx 2, .key "email"]
    ∧ (∀ kw, kw ∈ ["allOf", "anyOf", "oneOf"] → ∀ n rest,
        reconcilePath (.key kw :: .idx n :: rest) = reconcilePath rest)
    ∧ (∀ kw, kw ∈ ["then", "else"] → ∀ rest,
        reconcilePath (.key kw :: rest) = reconcilePath rest)
    ∧ (∀ n rest, reconcilePath (.key "items" :: .idx n :: rest)
        = .idx n :: reconcilePath rest)
    ∧ (∀ name rest, reconcilePath (.key "properties" :: .key name :: rest)
        = .key name :: reconcilePath rest)
    ∧ (∀ n rest, reconcilePath (.idx n :: rest) = .idx n :: reconcilePath rest) := by
  refine ⟨rfl, rfl, ?_, ?_, ?_, ?_, ?_⟩
  · intro kw hkw n rest
    fin_cases hkw <;> simp [reconcilePath, isCompositionKw]
  · intro kw hkw rest
    fin_cases hkw <;>
      rcases rest with _ | ⟨⟨s2⟩ | ⟨m⟩, tl⟩ <;>
        simp [reconcilePath, isCompositionKw]
  · intro n rest
    simp [reconcilePath, isCompositionKw]
  · intro name rest
    simp [reconcilePath]
  · intro n rest
    simp [reconcilePath]

/-- C2, witness: the composition-drop clause applied at `allOf` with index 0
before a concrete property segment. -/
theorem C2_witness :
    reconcilePath [.key "allOf", .idx 0, .key "properties", .key "zip"]
      = [.key "zip"] := by
  rw [C2_reconcilePath.2.2.1 "allOf" (by simp) 0 [.key "properties", .key "zip"]]
  rfl

/-! ## Rule Expression Interpreter

Modelled from the spec (§4.1): the json-logic style rule interpreter is not
under src/ (only the `RulesLogic` type reference and the
`customJsonLogicOps` option appear there). -/

mutual

/-- A rule expression: a literal value, a variable-path reference, or an
operator applied to an ordered operand list. -/
inductive RuleExpr where
  | lit (v : JSValue)
  | varPath (path : String)
  | app (op : String) (args : RuleArgs)

/-- An ordered list of rule-expression operands. -/
inductive RuleArgs where
  | nil
  | cons (e : RuleExpr) (tl : RuleArgs)

end

/-- Caller-supplied named operations, keyed by operator name. -/
def CustomOps : Type := List (String × (List JSValue → JSValue))

/-- Lookup of a custom operation by name. -/
def lookupCustomOp : CustomOps → String → Option (List JSValue → JSValue)
  | [], _ => none
  | (k, f) :: tl, name => if k = name then some f else lookupCustomOp tl name

/-- json-logic truthiness: like JavaScript truthiness except that an empty
array is falsy. -/
def logicTruthy : JSValue → Bool
  | .arr .nil => false
  | .arr (.cons _ _) => true
  | v => jsTruthy v

/-- Dot-splitting of a character list into path groups. -/
def splitCharsDot : List Char → List (List Char)
  | [] => [[]]
  | c :: rest =>
      let r := splitCharsDot rest
      if c = '.' then [] :: r
      else
        match r with
        | [] => [[c]]
        | g :: gs => (c :: g) :: gs

/-- The dot-separated segments of a variable path. -/
def splitOnDot (s : String) : List String :=
  (splitCharsDot s.data).map String.mk

/-- A variable-path reference `{var: "a.b"}`: the empty path denotes the whole
context, otherwise the dot-separated path is followed with property access,
missing steps yielding undefined rather than failing. -/
def lookupVar (ctx : JSValue) (path : String) : JSValue :=
  if path = "" then ctx else (splitOnDot path).foldl getProp ctx

/-- The numeric view of a value, when it is a number. -/
def toNum : JSValue → Option ℚ
  | .num q => some q
  | _ => none

/-- Numeric comparison: false whenever either operand is not a number. -/
def numCmp (f : ℚ → ℚ → Bool) (a b : JSValue) : Bool :=
  match toNum a, toNum b with
  | some x, some y => f x y
  | _, _ => false

/-- The operator names the interpreter implements natively.  The model covers
the comparison, boolean, arithmetic, min/max, membership and conditional
operators; the remaining spec operators (map/filter/reduce and friends) are
outside the modelled fragment. -/
def isBuiltinOp (op : String) : Bool :=
  op ∈ ["==", "===", "!=", "!==", "!", "!!", "and", "or", "if", "?:",
    ">", ">=", "<", "<=", "+", "-", "*", "/", "min", "max", "in", "cat"]

/-- String form of a value, used by `cat`. -/
def jsToString : JSValue → String
  | .undefV => "undefined"
  | .null => "null"
  | .bool b => if b then "true" else "false"
  | .num q => if q.den = 1 then toString q.num else toString q
  | .str s => s
  | .arr _ => ""
  | .obj _ => ""

/-- Fold for `and`: the first falsy operand, else the last operand. -/
def andFold : List JSValue → JSValue
  | [] => .bool true
  | [x] => x
  | x :: rest => if logicTruthy x then andFold rest else x

/-- Fold for `or`: the first truthy operand, else the last operand. -/
def orFold : List JSValue → JSValue
  | [] => .bool false
  | [x] => x
  | x :: rest => if logicTruthy x then x else orFold rest

/-- Fold for `if`/`?:` chains: condition, consequent, (elif-chain), else. -/
def ifFold : List JSValue → JSValue
  | [] => .null
  | [x] => x
  | [c, t] => if logicTruthy c then t else .null
  | c :: t :: rest => if logicTruthy c then t else ifFold rest

/-- Sum of numeric operands; null if any operand is not a number. -/
def sumNums : List JSValue → Option ℚ
  | [] => some 0
  | v :: rest => do
      let x ← toNum v
      let y ← sumNums rest
      some (x + y)

/-- Product of numeric operands; null if any operand is not a number. -/
def prodNums : List JSValue → Option ℚ
  | [] => some 1
  | v :: rest => do
      let x ← toNum v
      let y ← prodNums rest
      some (x * y)

/-- Minimum of numeric operands. -/
def minNums : List JSValue → Option ℚ
  | [] => none
  | [v] => toNum v
  | v :: rest => do
      let x ← toNum v
      let y ← minNums rest
      some (min x y)

/-- Maximum of numeric operands. -/
def maxNums : List JSValue → Option ℚ
  | [] => none
  | [v] => toNum v
  | v :: rest => do
      let x ← toNum v
      let y ← maxNums rest
      some (max x y)

/-- Membership: element of an array (by deep equality) or substring. -/
def inOp (a b : JSValue) : Bool :=
  match b with
  | .arr l => containsVal l a
  | .str s =>
      match a with
      | .str sub => sub = "" || (s.splitOn sub).length > 1
      | _ => false
  | _ => false
where
  /-- Whether the value list contains the value, by deep equality. -/
  containsVal : JSList → JSValue → Bool
    | .nil, _ => false
    | .cons h tl, x => jsEq h x || containsVal tl x

/-- An Option numeric result as a value, null when absent. -/
def numOrNull : Option ℚ → JSValue
  | some q => .num q
  | none => .null

/-- Application of a native operator to already-evaluated operands.  Only
meaningful for names satisfying isBuiltinOp; arity or type mismatches yield
null rather than failing, mirroring the coercion-free tolerant evaluation the
spec requires (§4.1: pure and total over well-formed expressions). -/
def applyBuiltin (op : String) (vals : List JSValue) : JSValue :=
  if op = "==" ∨ op = "===" then .bool (jsEq (vals.getD 0 .null) (vals.getD 1 .null))
  else if op = "!=" ∨ op = "!==" then .bool (!jsEq (vals.getD 0 .null) (vals.getD 1 .null))
  else if op = "!" then .bool (!logicTruthy (vals.getD 0 .null))
  else if op = "!!" then .bool (logicTruthy (vals.getD 0 .null))
  else if op = "and" then andFold vals
  else if op = "or" then orFold vals
  else if op = "if" ∨ op = "?:" then ifFold vals
  else if op = ">" then .bool (numCmp (fun a b => b < a) (vals.getD 0 .null) (vals.getD 1 .null))
  else if op = ">=" then .bool (numCmp (fun a b => b ≤ a) (vals.getD 0 .null) (vals.getD 1 .null))
  else if op = "<" then .bool (numCmp (fun a b => a < b) (vals.getD 0 .null) (vals.getD 1 .null))
  else if op = "<=" then .bool (numCmp (fun a b => a ≤ b) (vals.getD 0 .null) (vals.getD 1 .null))
  else if op = "+" then numOrNull (sumNums vals)
  else if op = "*" then numOrNull (prodNums vals)
  else if op = "-" then
    match vals with
    | [a] => numOrNull (do let x ← toNum a; some (-x))
    | [a, b] => numOrNull (do let x ← toNum a; let y ← toNum b; some (x - y))
    | _ => .null
  else if op = "/" then
    match vals with
    | [a, b] =>
        numOrNull (do
          let x ← toNum a
          let y ← toNum b
          if y = 0 then none else some (x / y))
    | _ => .null
  else if op = "min" then numOrNull (minNums vals)
  else if op = "max" then numOrNull (maxNums vals)
  else if op = "in" then .bool (inOp (vals.getD 0 .null) (vals.getD 1 .null))
  else if op = "cat" then .str (String.join (vals.map jsToString))
  else .null

mutual

/-- Modelled from the spec: `evaluate(expr, context, customOps)` of the Rule
Expression Interpreter (§4.1), which is not under src/.  Pure and total over
well-formed expressions; native operators take precedence over caller-supplied
operations of the same name; an operator registered in neither table fails
with the UnknownOperator condition. -/
def evalRule (ops : CustomOps) (ctx : JSValue) : RuleExpr → Except String JSValue
  | .lit v => .ok v
  | .varPath p => .ok (lookupVar ctx p)
  | .app op args => do
      let vals ← evalArgs ops ctx args
      if isBuiltinOp op then .ok (applyBuiltin op vals)
      else
        match lookupCustomOp ops op with
        | some f => .ok (f vals)
        | none => .error ("UnknownOperator: " ++ op)

/-- Evaluation of an operand list, left to right. -/
def evalArgs (ops : CustomOps) (ctx : JSValue) : RuleArgs → Except String (List JSValue)
  | .nil => .ok []
  | .cons e tl => do
      let v ← evalRule ops ctx e
      let vs ← evalArgs ops ctx tl
      .ok (v :: vs)

end

mutual

/-- Whether every operator name in the expression is registered, natively or
in the custom table. -/
def ruleOpsKnown (ops : CustomOps) : RuleExpr → Bool
  | .lit _ => true
  | .varPath _ => true
  | .app op args =>
      (isBuiltinOp op || (lookupCustomOp ops op).isSome) && argsOpsKnown ops args

/-- ruleOpsKnown over an operand list. -/
def argsOpsKnown (ops : CustomOps) : RuleArgs → Bool
  | .nil => true
  | .cons e tl => ruleOpsKnown ops e && argsOpsKnown ops tl

end

mutual

/-- Evaluation succeeds on every context when all operators are known. -/
theorem evalRule_ok_of_known (ops : CustomOps) (ctx : JSValue) :
    ∀ e : RuleExpr, ruleOpsKnown ops e = true → ∃ v, evalRule ops ctx e = .ok v
  | .lit v, _ => ⟨v, rfl⟩
  | .varPath p, _ => ⟨lookupVar ctx p, rfl⟩
  | .app op args, h => by
      simp only [ruleOpsKnown, Bool.and_eq_true, Bool.or_eq_true] at h
      obtain ⟨vs, hvs⟩ := evalArgs_ok_of_known ops ctx args h.2
      rcases h.1 with hb | hc
      · exact ⟨applyBuiltin op vs, by simp [evalRule, hvs, hb, bind, Except.bind]⟩
      · obtain ⟨f, hf⟩ := Option.isSome_iff_exists.mp hc
        by_cases hb : isBuiltinOp op = true
        · exact ⟨applyBuiltin op vs, by simp [evalRule, hvs, hb, bind, Except.bind]⟩
        · exact ⟨f vs, by simp [evalRule, hvs, hb, hf, bind, Except.bind]⟩

/-- Operand-list evaluation succeeds when all operators are known. -/
theorem evalArgs_ok_of_known (ops : CustomOps) (ctx : JSValue) :
    ∀ args : RuleArgs, argsOpsKnown ops args = true →
      ∃ vs, evalArgs ops ctx args = .ok vs
  | .nil, _ => ⟨[], rfl⟩
  | .cons e tl, h => by
      simp only [argsOpsKnown, Bool.and_eq_true] at h
      obtain ⟨v, hv⟩ := evalRule_ok_of_known ops ctx e h.1
      obtain ⟨vs, hvs⟩ := evalArgs_ok_of_known ops ctx tl h.2
      exact ⟨v :: vs, by simp [evalArgs, hv, hvs, bind, Except.bind]⟩

end

mutual

/-- The only failure evaluation can produce is the UnknownOperator condition. -/
theorem evalRule_error_shape (ops : CustomOps) (ctx : JSValue) :
    ∀ (e : RuleExpr) (msg : String), evalRule ops ctx e = .error msg →
      ∃ op, msg = "UnknownOperator: " ++ op
  | .lit v, msg, h => by simp [evalRule] at h
  | .varPath p, msg, h => by simp [evalRule] at h
  | .app op args, msg, h => by
      simp only [evalRule, bind, Except.bind] at h
      cases hargs : evalArgs ops ctx args with
      | error e2 =>
          rw [hargs] at h
          exact evalArgs_error_shape ops ctx args msg (by rw [hargs]; injection h; simp [*])
      | ok vs =>
          rw [hargs] at h
          by_cases hb : isBuiltinOp op = true
          · simp [hb] at h
          · simp only [hb, Bool.false_eq_true, if_false] at h
            cases hc : lookupCustomOp ops op with
            | some f => rw [hc] at h; simp at h
            | none =>
                rw [hc] at h
                refine ⟨op, ?_⟩
                injection h with h2
                exact h2.symm

/-- evalArgs can only fail with the UnknownOperator condition. -/
theorem evalArgs_error_shape (ops : CustomOps) (ctx : JSValue) :
    ∀ (args : RuleArgs) (msg : String), evalArgs ops ctx args = .error msg →
      ∃ op, msg = "UnknownOperator: " ++ op
  | .nil, msg, h => by simp [evalArgs] at h
  | .cons e tl, msg, h => by
      simp only [evalArgs, bind, Except.bind] at h
      cases he : evalRule ops ctx e with
      | error e2 =>
          rw [he] at h
          injection h with h2
          exact evalRule_error_shape ops ctx e msg (by rw [he, h2])
      | ok v =>
          rw [he] at h
          cases htl : evalArgs ops ctx tl with
          | error e3 =>
              rw [htl] at h
              injection h with h2
              exact evalArgs_error_shape ops ctx tl msg (by rw [htl, h2])
          | ok vs => rw [htl] at h; simp at h

end

/-! ## Schema nodes

Modelled from the spec (§3, data model): the SchemaNode structure with the
keyword fragment the claims exercise — type, const, enum, required,
properties, items, the composition lists, the standard conditional triple,
the rule-keyed conditional triple, the validations reference list, the
presentation bag and the title.  String/number bound keywords and computed
values fall outside the modelled fragment. -/

/-- The non-recursive payload of a schema node. -/
structure SchemaData where
  ty : Option String
  constV : Option JSValue
  enumV : Option JSList
  required : List String
  logicIf : Option RuleExpr
  validations : List String
  present : JSObj
  title : Option String

mutual

/-- A schema node: a boolean schema or an object node. -/
inductive Schema where
  | boolS (b : Bool)
  | node (d : SchemaData) (props : PropList) (items : OSchema)
      (allOf : SchemaList) (anyOf : SchemaList) (oneOf : OSchemaList)
      (notS : OSchema) (ifS : OSchema) (thenS : OSchema) (elseS : OSchema)
      (logicThen : OSchema) (logicElse : OSchema)

/-- An optional sub-schema (an absent keyword). -/
inductive OSchema where
  | none
  | some (s : Schema)

/-- Named properties with their sub-schemas, in declaration order. -/
inductive PropList where
  | nil
  | cons (name : String) (s : Schema) (tl : PropList)

/-- An ordered list of sub-schemas (a composition list). -/
inductive SchemaList where
  | nil
  | cons (s : Schema) (tl : SchemaList)

/-- An optional composition list (present `oneOf` versus absent). -/
inductive OSchemaList where
  | none
  | some (l : SchemaList)

end

/-- A named rule definition from the root logic block: the rule and an
optional custom error message. -/
structure RuleDef where
  rule : RuleExpr
  errorMessage : Option String

/-- The root logic environment: named validations. -/
def LogicEnv : Type := List (String × RuleDef)

/-- Lookup of a named validation in the environment. -/
def envLookup : LogicEnv → String → Option RuleDef
  | [], _ => Option.none
  | (k, d) :: tl, name => if k = name then Option.some d else envLookup tl name

/-- A structured validation error: keyword, schema-shaped path, message. -/
structure VError where
  keyword : String
  path : List PathSeg
  message : String
  deriving DecidableEq, Repr

/-- Whether a declared type name matches a (present) value. -/
def typeMatches (ty : String) (v : JSValue) : Bool :=
  match ty, v with
  | "string", .str _ => true
  | "number", .num _ => true
  | "integer", .num q => q.den == 1
  | "boolean", .bool _ => true
  | "object", .obj _ => true
  | "array", .arr _ => true
  | "null", .null => true
  | "string", _ => false
  | "number", _ => false
  | "integer", _ => false
  | "boolean", _ => false
  | "object", _ => false
  | "array", _ => false
  | "null", _ => false
  | _, _ => true

/-- Membership of a value in a value list, by deep equality. -/
def listContains : JSList → JSValue → Bool
  | .nil, _ => false
  | .cons h tl, x => jsEq h x || listContains tl x

/-- A value list as a Lean list. -/
def jsListToList : JSList → List JSValue
  | .nil => []
  | .cons h tl => h :: jsListToList tl

/-- Sequential collection of error lists, propagating the first failure. -/
def collectErrs : List (Except String (List VError)) → Except String (List VError)
  | [] => .ok []
  | x :: tl => do
      let e ← x
      let es ← collectErrs tl
      .ok (e ++ es)

/-- The branch whose error list is shortest (the first such branch) — the
best-effort minimal-diagnostic policy for `anyOf`. -/
def pickMinErrs : List (List VError) → List VError
  | [] => []
  | [e] => e
  | e :: rest =>
      let m := pickMinErrs rest
      if e.length ≤ m.length then e else m

/-- How many branch error lists are empty (how many branches matched). -/
def countMatches : List (List VError) → ℕ
  | [] => 0
  | e :: rest => (if e.isEmpty then 1 else 0) + countMatches rest

/-- Modelled from the spec: evaluation of the rule-referenced validations of a
node (§4.3) — each named validation is looked up in the root logic
environment (a missing name is the malformed-rule-reference failure) and its
rule is evaluated as a boolean expression against the whole form value
context `root`, an error at the node path being recorded when it is falsy. -/
def validateRefs (ops : CustomOps) (env : LogicEnv) (root : JSValue)
    (path : List PathSeg) : List String → Except String (List VError)
  | [] => .ok []
  | name :: tl => do
      match envLookup env name with
      | Option.none => .error ("UnknownValidation: " ++ name)
      | Option.some rd => do
          let res ← evalRule ops root rd.rule
          let rest ← validateRefs ops env root path tl
          let here :=
            if logicTruthy res then []
            else [⟨name, path, rd.errorMessage.getD "Invalid value"⟩]
          .ok (here ++ rest)

/-- The required-key errors of an object value. -/
def requiredErrs (v : JSValue) (path : List PathSeg) : List String → List VError
  | [] => []
  | r :: tl =>
      (if isUndefV (getProp v r) then
        [⟨"required", path ++ [.key "properties", .key r], "Required field"⟩]
      else []) ++ requiredErrs v path tl

/-- Whether type dispatch rejects the (present) value. -/
def typeFails (d : SchemaData) (v : JSValue) : Bool :=
  match d.ty with
  | Option.some t => !typeMatches t v
  | Option.none => false

/-- The const-keyword errors of a node. -/
def constErrsOf (d : SchemaData) (v : JSValue) (path : List PathSeg) : List VError :=
  match d.constV with
  | Option.some c => if jsEq v c then [] else [⟨"const", path, "Invalid value"⟩]
  | Option.none => []

/-- The enum-keyword errors of a node. -/
def enumErrsOf (d : SchemaData) (v : JSValue) (path : List PathSeg) : List VError :=
  match d.enumV with
  | Option.some l => if listContains l v then [] else [⟨"enum", path, "Invalid option"⟩]
  | Option.none => []

/-- The required-keyword errors of a node (objects only). -/
def reqErrsOf (d : SchemaData) (v : JSValue) (path : List PathSeg) : List VError :=
  match v with
  | .obj _ => requiredErrs v path d.required
  | _ => []

/-- The anyOf decision on per-branch error lists: no error when some branch
matches, else the errors of the branch with fewest failing keywords. -/
def anyOfDecide (branches : List (List VError)) : List VError :=
  if countMatches branches > 0 then [] else pickMinErrs branches

/-- The oneOf decision on per-branch error lists: no error iff exactly one
branch matches, a single oneOf error otherwise. -/
def oneOfDecide (branches : List (List VError)) (path : List PathSeg) : List VError :=
  if countMatches branches = 1 then []
  else [⟨"oneOf", path, "Must match exactly one option"⟩]

/-- The not decision: an error exactly when the sub-schema validates. -/
def notDecide (es : List VError) (path : List PathSeg) : List VError :=
  if es.isEmpty then [⟨"not", path, "Must not validate"⟩] else []

mutual

/-- Modelled from the spec: the recursive descent Schema Validator (§4.3),
which is not under src/, restricted to the keyword fragment of the modelled
SchemaNode.  Dispatch is by declared type, a mismatch failing immediately
without family checks; const/enum/required are checked, then the
rule-referenced validations against the whole form context, then properties,
items, `allOf` (union of sub-errors), `anyOf` (errors only when all branches
fail, reporting the branch with fewest errors), `oneOf` (exactly one branch
must match, a single error otherwise) and `not`.  An absent value validates
trivially; a false boolean schema always fails. -/
def validateS (ops : CustomOps) (env : LogicEnv) (root : JSValue) :
    Schema → JSValue → List PathSeg → Except String (List VError)
  | .boolS b, v, path =>
      if isUndefV v then .ok []
      else if b then .ok []
      else .ok [⟨"false-schema", path, "Forbidden value"⟩]
  | .node d props items aOf anyO oneO nS _iS _tS _eS _lT _lE, v, path =>
      if isUndefV v then .ok []
      else if typeFails d v then .ok [⟨"type", path, "Invalid type"⟩]
      else do
        let ruleErrs ← validateRefs ops env root path d.validations
        let propErrs ← validateProps ops env root props v path
        let itemErrs ← validateItemsPart ops env root items v path
        let allBranches ← validateBranches ops env root "allOf" aOf v path 0
        let anyErrs ← validateAnyOfPart ops env root anyO v path
        let oneErrs ← validateOneOfPart ops env root oneO v path
        let notErrs ← validateNotPart ops env root nS v path
        .ok (constErrsOf d v path ++ enumErrsOf d v path ++ reqErrsOf d v path
          ++ ruleErrs ++ propErrs ++ itemErrs ++ allBranches.flatten
          ++ anyErrs ++ oneErrs ++ notErrs)

/-- Validation of an items sub-schema against each element of an array value,
paths extended by the `items` marker and the element index. -/
def validateItemsPart (ops : CustomOps) (env : LogicEnv) (root : JSValue) :
    OSchema → JSValue → List PathSeg → Except String (List VError)
  | .none, _, _ => .ok []
  | .some s2, v, path =>
      match v with
      | .arr l =>
          collectErrs ((jsListToList l).enum.map
            (fun p => validateS ops env root s2 p.2 (path ++ [.key "items", .idx p.1])))
      | _ => .ok []

/-- The anyOf stage of a node: absent list means no check; otherwise all
branches are validated and the anyOf decision is applied. -/
def validateAnyOfPart (ops : CustomOps) (env : LogicEnv) (root : JSValue) :
    SchemaList → JSValue → List PathSeg → Except String (List VError)
  | .nil, _, _ => .ok []
  | .cons b bs, v, path => do
      let e ← validateS ops env root b v (path ++ [.key "anyOf", .idx 0])
      let es ← validateBranches ops env root "anyOf" bs v path 1
      .ok (anyOfDecide (e :: es))

/-- The oneOf stage of a node: absent keyword means no check; otherwise all
branches are validated and the oneOf decision is applied. -/
def validateOneOfPart (ops : CustomOps) (env : LogicEnv) (root : JSValue) :
    OSchemaList → JSValue → List PathSeg → Except String (List VError)
  | .none, _, _ => .ok []
  | .some bs, v, path => do
      let branches ← validateBranches ops env root "oneOf" bs v path 0
      .ok (oneOfDecide branches path)

/-- The not stage of a node: an error exactly when the sub-schema validates. -/
def validateNotPart (ops : CustomOps) (env : LogicEnv) (root : JSValue) :
    OSchema → JSValue → List PathSeg → Except String (List VError)
  | .none, _, _ => .ok []
  | .some s2, v, path => do
      let es ← validateS ops env root s2 v path
      .ok (notDecide es path)

/-- Validation of the named properties of an object node: each sub-schema is
checked against the corresponding property of the value, the path extended by
the `properties` marker and the name. -/
def validateProps (ops : CustomOps) (env : LogicEnv) (root : JSValue) :
    PropList → JSValue → List PathSeg → Except String (List VError)
  | .nil, _, _ => .ok []
  | .cons name s tl, v, path => do
      let e ← validateS ops env root s (getProp v name)
        (path ++ [.key "properties", .key name])
      let es ← validateProps ops env root tl v path
      .ok (e ++ es)

/-- Per-branch validation of a composition list under keyword `kw`, each
branch error list kept separate, paths extended by the keyword marker and the
branch index. -/
def validateBranches (ops : CustomOps) (env : LogicEnv) (root : JSValue)
    (kw : String) :
    SchemaList → JSValue → List PathSeg → ℕ → Except String (List (List VError))
  | .nil, _, _, _ => .ok []
  | .cons s tl, v, path, i => do
      let e ← validateS ops env root s v (path ++ [.key kw, .idx i])
      let es ← validateBranches ops env root kw tl v path (i + 1)
      .ok (e :: es)

end

/-- The empty node payload: no constraints, no rules, empty presentation. -/
def emptyData : SchemaData :=
  ⟨Option.none, Option.none, Option.none, [], Option.none, [], .nil, Option.none⟩

/-- A node with the given payload and no sub-schemas. -/
def mkNode (d : SchemaData) : Schema :=
  .node d .nil .none .nil .nil .none .none .none .none .none .none .none

/-- A sub-schema constraining the value to a single constant. -/
def constSchema (v : JSValue) : Schema :=
  mkNode { emptyData with constV := Option.some v }

/-- The sub-schema `{oneOf: [{const: "a"}, {const: "b"}]}` of claim C6. -/
def oneOfExample : Schema :=
  .node emptyData .nil .none .nil .nil
    (.some (.cons (constSchema (.str "a")) (.cons (constSchema (.str "b")) .nil)))
    .none .none .none .none .none .none

/-- A node whose only constraint is a present `oneOf` composition list. -/
def oneOfNode (bs : SchemaList) : Schema :=
  .node emptyData .nil .none .nil .nil (.some bs) .none .none .none .none .none .none

/-! ## Claim C6 (oneOf semantics) -/

/-- C6: for `oneOf: [{const:"a"},{const:"b"}]` the value "a" validates with
zero errors and the value "c" yields exactly one error with keyword `oneOf`;
in general a oneOf node validates iff exactly one branch matches (its error
list is empty), and a single oneOf error is reported when zero or more than
one branch matches. -/

theorem C6_oneOf_semantics :
    validateS [] [] (.str "a") oneOfExample (.str "a") [] = .ok []
    ∧ validateS [] [] (.str "c") oneOfExample (.str "c") []
        = .ok [⟨"oneOf", [], "Must match exactly one option"⟩]
    ∧ ∀ (ops : CustomOps) (env : LogicEnv) (root v : JSValue) (bs : SchemaList)
        (path : List PathSeg) (branches : List (List VError)),
        isUndefV v = false →
        validateBranches ops env root "oneOf" bs v path 0 = .ok branches →
        (countMatches branches = 1 →
          validateS ops env root (oneOfNode bs) v path = .ok [])
        ∧ (countMatches branches ≠ 1 →
          validateS ops env root (oneOfNode bs) v path
            = .ok [⟨"oneOf", path, "Must match exactly one option"⟩]) := by
  refine ⟨rfl, rfl, ?_⟩
  intro ops env root v bs path branches hv hbr
  have main : validateS ops env root (oneOfNode bs) v path
      = .ok (oneOfDecide branches path) := by
    cases v <;>
      simp_all [oneOfNode, validateS, typeFails, emptyData, isUndefV,
        validateRefs, validateProps, validateItemsPart, validateBranches,
        validateAnyOfPart, validateOneOfPart, validateNotPart, constErrsOf,
        enumErrsOf, reqErrsOf, requiredErrs, bind, Except.bind]
  rw [main]
  constructor
  · intro h1
    simp [oneOfDecide, h1]
  · intro h1
    simp [oneOfDecide, h1]

/-- C6, witness: the general clause applied to the concrete branches computed
for value "c" against the two constant branches — zero branches match and the
single oneOf error is produced. -/
theorem C6_witness :
    validateS [] [] (.str "c") (oneOfNode
      (.cons (constSchema (.str "a")) (.cons (constSchema (.str "b")) .nil)))
      (.str "c") [.key "properties", .key "t"]
      = .ok [⟨"oneOf", [.key "properties", .key "t"],
          "Must match exactly one option"⟩] :=
  ((C6_oneOf_semantics.2.2 [] [] (.str "c") (.str "c")
      (.cons (constSchema (.str "a")) (.cons (constSchema (.str "b")) .nil))
      [.key "properties", .key "t"]
      [[⟨"const", [.key "properties", .key "t", .key "oneOf", .idx 0], "Invalid value"⟩],
       [⟨"const", [.key "properties", .key "t", .key "oneOf", .idx 1], "Invalid value"⟩]]
      rfl rfl).2 (by decide))


/-! ## Claim C7 (rule-referenced validations against the whole form context) -/

/-- The rule `{">=": [{var: "age"}, 18]}` of claim C7. -/
def ageRule : RuleExpr :=
  .app ">=" (.cons (.varPath "age") (.cons (.lit (.num 18)) .nil))

/-- An object schema whose single property `age` references the named
validation `name`. -/
def ruleField (name : String) : Schema :=
  .node emptyData
    (.cons "age" (mkNode { emptyData with validations := [name] }) .nil)
    .none .nil .nil .none .none .none .none .none .none .none

/-- The logic environment binding `minAge` to the age rule. -/
def minAgeEnv : LogicEnv :=
  [("minAge", ⟨ageRule, Option.some "Must be 18 or older"⟩)]

/-- The form values `{age: 17}` and `{age: 18}`. -/
def ageVal (n : ℚ) : JSValue := .obj (.cons "age" (.num n) .nil)

/-- C7: a rule-referenced validation is evaluated as a boolean rule expression
against the whole form value context (the root), not the local sub-value: for
any rule bound to `name` and referenced from field `age`, the validator
evaluates the rule on the full values object and reports exactly one error at
the raw path properties/age (which reconciles to `age`) when it is falsy, and
none when it is truthy; in particular `{">=":[{var:"age"},18]}` yields exactly
one error at `age` for `{age:17}` and no error for `{age:18}`. -/
theorem C7_rule_validation :
    validateS [] minAgeEnv (ageVal 17) (ruleField "minAge") (ageVal 17) []
      = .ok [⟨"minAge", [.key "properties", .key "age"], "Must be 18 or older"⟩]
    ∧ validateS [] minAgeEnv (ageVal 18) (ruleField "minAge") (ageVal 18) []
      = .ok []
    ∧ reconcilePath [.key "properties", .key "age"] = [.key "age"]
    ∧ ∀ (ops : CustomOps) (rule : RuleExpr) (em : Option String) (name : String)
        (V res : JSValue),
        isUndefV V = false →
        isUndefV (getProp V "age") = false →
        evalRule ops V rule = .ok res →
        validateS ops [(name, ⟨rule, em⟩)] V (ruleField name) V []
          = .ok (if logicTruthy res then []
                 else [⟨name, [.key "properties", .key "age"],
                   em.getD "Invalid value"⟩]) := by
  refine ⟨rfl, rfl, rfl, ?_⟩
  intro ops rule em name V res hV hage hrule
  cases V <;>
    simp_all [validateS, ruleField, mkNode, emptyData, typeFails, isUndefV,
      validateRefs, validateProps, validateItemsPart, validateBranches,
      validateAnyOfPart, validateOneOfPart, validateNotPart, constErrsOf,
      enumErrsOf, reqErrsOf, requiredErrs, envLookup, bind, Except.bind] <;>
    split <;> simp_all

/-- C7, witness: the general clause at the concrete age rule, values
`{age: 17}` and the computed falsy result. -/
theorem C7_witness :
    validateS [] [("minAge", ⟨ageRule, Option.some "Must be 18 or older"⟩)]
      (ageVal 17) (ruleField "minAge") (ageVal 17) []
      = .ok [⟨"minAge", [.key "properties", .key "age"], "Must be 18 or older"⟩] := by
  have h := C7_rule_validation.2.2.2 [] ageRule (Option.some "Must be 18 or older")
    "minAge" (ageVal 17) (.bool false) rfl rfl rfl
  simpa [minAgeEnv, logicTruthy, jsTruthy] using h

/-! ## Branch merge semantics

Modelled from the spec (§4.2 step 3): a chosen branch is shallow-merged onto
the node — per keyword the branch wins when it carries the keyword — except
that nested `properties` are merged key by key, recursively, the branch
winning per key. -/

/-- Branch-wins choice of an optional keyword. -/
def mergeOpt {α : Type} (a b : Option α) : Option α :=
  match b with
  | Option.some x => Option.some x
  | Option.none => a

/-- Branch-wins choice of a list keyword ([] meaning absent). -/
def mergeListKw {α : Type} (a b : List α) : List α :=
  match b with
  | [] => a
  | _ => b

/-- Branch-wins choice of an optional sub-schema. -/
def mergeOS (a b : OSchema) : OSchema :=
  match b with
  | .some s => .some s
  | .none => a

/-- Branch-wins choice of a composition list (nil meaning absent). -/
def mergeSL (a b : SchemaList) : SchemaList :=
  match b with
  | .nil => a
  | .cons s tl => .cons s tl

/-- Branch-wins choice of an optional composition list. -/
def mergeOSL (a b : OSchemaList) : OSchemaList :=
  match b with
  | .some l => .some l
  | .none => a

/-- Branch-wins choice of a presentation bag (nil meaning absent). -/
def mergeBag (a b : JSObj) : JSObj :=
  match b with
  | .nil => a
  | .cons k v tl => .cons k v tl

/-- Shallow branch-wins merge of the non-recursive node payloads. -/
def mergeData (a b : SchemaData) : SchemaData :=
  ⟨mergeOpt a.ty b.ty, mergeOpt a.constV b.constV, mergeOpt a.enumV b.enumV,
    mergeListKw a.required b.required, mergeOpt a.logicIf b.logicIf,
    mergeListKw a.validations b.validations, mergeBag a.present b.present,
    mergeOpt a.title b.title⟩

/-- Lookup of a property sub-schema by name. -/
def plLookup : PropList → String → Option Schema
  | .nil, _ => Option.none
  | .cons n s tl, name => if n = name then Option.some s else plLookup tl name

/-- Whether a property list binds the name. -/
def plHasKey : PropList → String → Bool
  | .nil, _ => false
  | .cons n _ tl, name => n = name || plHasKey tl name

/-- Concatenation of property lists. -/
def plAppend : PropList → PropList → PropList
  | .nil, b => b
  | .cons n s tl, b => .cons n s (plAppend tl b)

/-- The properties of the branch whose names the node does not declare. -/
def propsNotIn : PropList → PropList → PropList
  | .nil, _ => .nil
  | .cons n s tl, a =>
      if plHasKey a n then propsNotIn tl a else .cons n s (propsNotIn tl a)

mutual

/-- Modelled from the spec: shallow branch-wins merge of a conditional branch
onto a node (§4.2 step 3); nested properties are merged key by key with the
branch winning per key.  A boolean schema contributes no keywords. -/
def mergeSchema : Schema → Schema → Schema
  | .boolS _, b => b
  | .node da pa ia aa ya oa na ifa ta ea lta lea, b =>
      match b with
      | .boolS _ => .node da pa ia aa ya oa na ifa ta ea lta lea
      | .node db pb ib ab yb ob nb ifb tb eb ltb leb =>
          .node (mergeData da db)
            (plAppend (mergePropsLeft pa pb) (propsNotIn pb pa)) (mergeOS ia ib)
            (mergeSL aa ab) (mergeSL ya yb) (mergeOSL oa ob) (mergeOS na nb)
            (mergeOS ifa ifb) (mergeOS ta tb) (mergeOS ea eb)
            (mergeOS lta ltb) (mergeOS lea leb)

/-- The node properties, each merged with the branch property of the same
name when one exists (the recursive per-key part of the properties merge);
branch-only keys are appended by mergeSchema itself. -/
def mergePropsLeft : PropList → PropList → PropList
  | .nil, _ => .nil
  | .cons n s tl, pb =>
      match plLookup pb n with
      | Option.some t => .cons n (mergeSchema s t) (mergePropsLeft tl pb)
      | Option.none => .cons n s (mergePropsLeft tl pb)

end

/-! ## Conditional Schema Resolver

Modelled from the spec (§4.2): not under src/.  For each node the children
(properties with the sub-context addressed by the property name, items with
an element-dependent context taken as undefined, the composition lists with
the node context) are resolved first; then the standard `if` conditional is
decided by validating the node context against the `if` sub-schema silently,
then the rule-keyed conditional is decided by evaluating its rule against the
whole form values; the chosen branches are themselves resolved and merged
onto the node in that order (the rule-keyed merge coming second, so it
overrides the standard one), and all conditional keywords are cleared in the
output — the resolved tree has every conditional branch collapsed. -/

/-- The resolved node before branch merging: the resolved children with every
conditional keyword cleared. -/
def resolvedBase (d : SchemaData) (props2 : PropList) (items2 : OSchema)
    (aOf2 anyO2 : SchemaList) (oneO2 : OSchemaList) (nS2 : OSchema) : Schema :=
  .node { d with logicIf := Option.none }
    props2 items2 aOf2 anyO2 oneO2 nS2 .none .none .none .none .none

/-- Merge of a chosen (already resolved) branch onto a node, when one was
chosen. -/
def applyMerge (base : Schema) (o : OSchema) : Schema :=
  match o with
  | .none => base
  | .some b => mergeSchema base b

mutual

/-- The resolver.  `root` is the whole form value context used by rule
evaluation, `v` the sub-context addressed to the current node. -/
def resolve (ops : CustomOps) (env : LogicEnv) (root : JSValue) :
    Schema → JSValue → Except String Schema
  | .boolS b, _ => .ok (.boolS b)
  | .node d props items aOf anyO oneO nS iS tS eS lT lE, v =>
      Except.bind (resolveProps ops env root props v) (fun props2 =>
      Except.bind (resolveO ops env root items .undefV) (fun items2 =>
      Except.bind (resolveList ops env root aOf v) (fun aOf2 =>
      Except.bind (resolveList ops env root anyO v) (fun anyO2 =>
      Except.bind (resolveOL ops env root oneO v) (fun oneO2 =>
      Except.bind (resolveO ops env root nS v) (fun nS2 =>
      Except.bind
        (match iS with
         | .none => Except.ok OSchema.none
         | .some c =>
             Except.bind (validateS ops env root c v []) (fun es =>
               if es.isEmpty then resolveO ops env root tS v
               else resolveO ops env root eS v))
        (fun stdRes =>
      Except.bind
        (match d.logicIf with
         | Option.none => Except.ok OSchema.none
         | Option.some r =>
             Except.bind (evalRule ops root r) (fun res =>
               if logicTruthy res then resolveO ops env root lT v
               else resolveO ops env root lE v))
        (fun ruleRes =>
      Except.ok
        (applyMerge
          (applyMerge (resolvedBase d props2 items2 aOf2 anyO2 oneO2 nS2) stdRes)
          ruleRes)))))))))

/-- Resolution of an optional sub-schema. -/
def resolveO (ops : CustomOps) (env : LogicEnv) (root : JSValue) :
    OSchema → JSValue → Except String OSchema
  | .none, _ => .ok .none
  | .some s, v => do
      let r ← resolve ops env root s v
      .ok (.some r)

/-- Resolution of the properties of a node, each against the sub-context
addressed by its name. -/
def resolveProps (ops : CustomOps) (env : LogicEnv) (root : JSValue) :
    PropList → JSValue → Except String PropList
  | .nil, _ => .ok .nil
  | .cons name s tl, v => do
      let r ← resolve ops env root s (getProp v name)
      let rest ← resolveProps ops env root tl v
      .ok (.cons name r rest)

/-- Resolution of a composition list against the node context. -/
def resolveList (ops : CustomOps) (env : LogicEnv) (root : JSValue) :
    SchemaList → JSValue → Except String SchemaList
  | .nil, _ => .ok .nil
  | .cons s tl, v => do
      let r ← resolve ops env root s v
      let rest ← resolveList ops env root tl v
      .ok (.cons r rest)

/-- Resolution of an optional composition list. -/
def resolveOL (ops : CustomOps) (env : LogicEnv) (root : JSValue) :
    OSchemaList → JSValue → Except String OSchemaList
  | .none, _ => .ok .none
  | .some l, v => do
      let r ← resolveList ops env root l v
      .ok (.some r)

end

/-! ## Resolvedness: all conditional branches collapsed -/

/-- Whether an optional sub-schema is absent. -/
def osNone : OSchema → Bool
  | .none => true
  | .some _ => false

mutual

/-- A schema is resolved when no node anywhere carries a conditional: the
shape the resolver outputs (ResolvedSchemaNode of the spec). -/
def isResolvedS : Schema → Bool
  | .boolS _ => true
  | .node d props items aOf anyO oneO nS iS tS eS lT lE =>
      osNone iS && osNone tS && osNone eS && osNone lT && osNone lE
        && d.logicIf.isNone
        && isResolvedP props && isResolvedO items && isResolvedL aOf
        && isResolvedL anyO && isResolvedOL oneO && isResolvedO nS

/-- Resolvedness of an optional sub-schema. -/
def isResolvedO : OSchema → Bool
  | .none => true
  | .some s => isResolvedS s

/-- Resolvedness of a property list. -/
def isResolvedP : PropList → Bool
  | .nil => true
  | .cons _ s tl => isResolvedS s && isResolvedP tl

/-- Resolvedness of a composition list. -/
def isResolvedL : SchemaList → Bool
  | .nil => true
  | .cons s tl => isResolvedS s && isResolvedL tl

/-- Resolvedness of an optional composition list. -/
def isResolvedOL : OSchemaList → Bool
  | .none => true
  | .some l => isResolvedL l

end

/-! ### Merging preserves resolvedness -/

theorem osNone_mergeOS {a b : OSchema} (ha : osNone a = true) (hb : osNone b = true) :
    osNone (mergeOS a b) = true := by
  cases b <;> simp_all [mergeOS, osNone]

theorem isNone_mergeOpt {α : Type} {a b : Option α} (ha : a.isNone) (hb : b.isNone) :
    (mergeOpt a b).isNone := by
  cases b <;> simp_all [mergeOpt]

theorem isResolvedO_mergeOS {a b : OSchema}
    (ha : isResolvedO a = true) (hb : isResolvedO b = true) :
    isResolvedO (mergeOS a b) = true := by
  cases b <;> simp_all [mergeOS, isResolvedO]

theorem isResolvedL_mergeSL {a b : SchemaList}
    (ha : isResolvedL a = true) (hb : isResolvedL b = true) :
    isResolvedL (mergeSL a b) = true := by
  cases b <;> simp_all [mergeSL]

theorem isResolvedOL_mergeOSL {a b : OSchemaList}
    (ha : isResolvedOL a = true) (hb : isResolvedOL b = true) :
    isResolvedOL (mergeOSL a b) = true := by
  cases b <;> simp_all [mergeOSL, isResolvedOL]

theorem isResolvedS_plLookup : ∀ (pb : PropList) (n : String) (t : Schema),
    isResolvedP pb = true → plLookup pb n = Option.some t → isResolvedS t = true
  | .nil, n, t, _, hk => by simp [plLookup] at hk
  | .cons n2 s tl, n, t, hp, hk => by
      simp only [isResolvedP, Bool.and_eq_true] at hp
      by_cases he : n2 = n
      · simp only [plLookup, he, if_pos rfl] at hk
        injection hk with hk
        exact hk ▸ hp.1
      · simp only [plLookup, he, if_false] at hk
        exact isResolvedS_plLookup tl n t hp.2 hk

theorem isResolvedP_propsNotIn : ∀ (pb pa : PropList),
    isResolvedP pb = true → isResolvedP (propsNotIn pb pa) = true
  | .nil, _, _ => rfl
  | .cons n s tl, pa, hp => by
      simp only [isResolvedP, Bool.and_eq_true] at hp
      by_cases hk : plHasKey pa n = true <;>
        simp [propsNotIn, hk, isResolvedP, hp.1, isResolvedP_propsNotIn tl pa hp.2]

theorem isResolvedP_plAppend : ∀ (a b : PropList),
    isResolvedP a = true → isResolvedP b = true → isResolvedP (plAppend a b) = true
  | .nil, b, _, hb => by simpa [plAppend]
  | .cons n s tl, b, ha, hb => by
      simp only [isResolvedP, Bool.and_eq_true] at ha
      simp [plAppend, isResolvedP, ha.1, isResolvedP_plAppend tl b ha.2 hb]

mutual

/-- Merging two resolved schemas yields a resolved schema. -/
theorem isResolved_merge : ∀ (a b : Schema),
    isResolvedS a = true → isResolvedS b = true →
    isResolvedS (mergeSchema a b) = true
  | .boolS _, b, _, hb => by simpa [mergeSchema] using hb
  | .node da pa ia aa ya oa na ifa ta ea lta lea, .boolS _, ha, _ => by
      simpa [mergeSchema] using ha
  | .node da pa ia aa ya oa na ifa ta ea lta lea,
    .node db pb ib ab yb ob nb ifb tb eb ltb leb, ha, hb => by
      simp only [isResolvedS, Bool.and_eq_true] at ha hb
      obtain ⟨⟨⟨⟨⟨⟨⟨⟨⟨⟨⟨hifa, hta⟩, hea⟩, hlta⟩, hlea⟩, hlia⟩, hpa⟩, hia⟩,
        haa⟩, hya⟩, hoa⟩, hna⟩ := ha
      obtain ⟨⟨⟨⟨⟨⟨⟨⟨⟨⟨⟨hifb, htb⟩, heb⟩, hltb⟩, hleb⟩, hlib⟩, hpb⟩, hib⟩,
        hab⟩, hyb⟩, hob⟩, hnb⟩ := hb
      simp only [mergeSchema, isResolvedS, Bool.and_eq_true]
      refine ⟨⟨⟨⟨⟨⟨⟨⟨⟨⟨⟨osNone_mergeOS hifa hifb, osNone_mergeOS hta htb⟩,
        osNone_mergeOS hea heb⟩, osNone_mergeOS hlta hltb⟩,
        osNone_mergeOS hlea hleb⟩, ?_⟩, ?_⟩,
        isResolvedO_mergeOS hia hib⟩, isResolvedL_mergeSL haa hab⟩,
        isResolvedL_mergeSL hya hyb⟩, isResolvedOL_mergeOSL hoa hob⟩,
        isResolvedO_mergeOS hna hnb⟩
      · exact isNone_mergeOpt hlia hlib
      · exact isResolvedP_plAppend _ _
          (isResolved_mergePropsLeft pa pb hpa hpb)
          (isResolvedP_propsNotIn pb pa hpb)

/-- The left part of a property merge preserves resolvedness. -/
theorem isResolved_mergePropsLeft : ∀ (pa pb : PropList),
    isResolvedP pa = true → isResolvedP pb = true →
    isResolvedP (mergePropsLeft pa pb) = true
  | .nil, _, _, _ => by simp [mergePropsLeft, isResolvedP]
  | .cons n s tl, pb, ha, hb => by
      simp only [isResolvedP, Bool.and_eq_true] at ha
      cases hk : plLookup pb n with
      | none =>
          simp [mergePropsLeft, hk, isResolvedP, ha.1,
            isResolved_mergePropsLeft tl pb ha.2 hb]
      | some t =>
          have ht := isResolvedS_plLookup pb n t hb hk
          simp [mergePropsLeft, hk, isResolvedP,
            isResolved_merge s t ha.1 ht,
            isResolved_mergePropsLeft tl pb ha.2 hb]

end

/-- Applying an optional resolved branch merge preserves resolvedness. -/
theorem isResolved_applyMerge {base : Schema} {o : OSchema}
    (hb : isResolvedS base = true) (ho : isResolvedO o = true) :
    isResolvedS (applyMerge base o) = true := by
  cases o with
  | none => simpa [applyMerge] using hb
  | some b =>
      simpa [applyMerge] using
        isResolved_merge _ _ hb (by simpa [isResolvedO] using ho)

/-- Reduction of a bind whose first component is ok. -/
theorem exceptBind_ok_eq {α β : Type} (a : α) (f : α → Except String β) :
    Except.bind (Except.ok a) f = f a := rfl

/-- Inversion of a successful Except bind. -/
theorem exceptBind_ok {α β : Type} {x : Except String α} {f : α → Except String β}
    {b : β} (h : x >>= f = .ok b) : ∃ a, x = .ok a ∧ f a = .ok b := by
  cases x with
  | ok a => exact ⟨a, rfl, by simpa [bind, Except.bind] using h⟩
  | error e => simp [bind, Except.bind] at h

mutual

/-- Every successful resolution yields a resolved schema: all conditional
branches are collapsed in the output. -/
theorem resolve_resolved (ops : CustomOps) (env : LogicEnv) (root : JSValue) :
    ∀ (s : Schema) (v : JSValue) (r : Schema),
      resolve ops env root s v = .ok r → isResolvedS r = true
  | .boolS b, v, r, h => by
      simp only [resolve] at h
      injection h with h
      rw [← h]
      rfl
  | .node d props items aOf anyO oneO nS iS tS eS lT lE, v, r, h => by
      simp only [resolve] at h
      obtain ⟨props2, hp, h⟩ := exceptBind_ok h
      obtain ⟨items2, hi, h⟩ := exceptBind_ok h
      obtain ⟨aOf2, hao, h⟩ := exceptBind_ok h
      obtain ⟨anyO2, hay, h⟩ := exceptBind_ok h
      obtain ⟨oneO2, hoo, h⟩ := exceptBind_ok h
      obtain ⟨nS2, hns, h⟩ := exceptBind_ok h
      obtain ⟨stdRes, hstd, h⟩ := exceptBind_ok h
      obtain ⟨ruleRes, hrule, h⟩ := exceptBind_ok h
      injection h with h
      have hbase : isResolvedS
          (resolvedBase d props2 items2 aOf2 anyO2 oneO2 nS2) = true := by
        simp only [resolvedBase, isResolvedS, Bool.and_eq_true]
        exact ⟨⟨⟨⟨⟨⟨⟨⟨⟨⟨⟨rfl, rfl⟩, rfl⟩, rfl⟩, rfl⟩, rfl⟩,
          resolveProps_resolved ops env root props v props2 hp⟩,
          resolveO_resolved ops env root items .undefV items2 hi⟩,
          resolveList_resolved ops env root aOf v aOf2 hao⟩,
          resolveList_resolved ops env root anyO v anyO2 hay⟩,
          resolveOL_resolved ops env root oneO v oneO2 hoo⟩,
          resolveO_resolved ops env root nS v nS2 hns⟩
      have hstdR : isResolvedO stdRes = true := by
        cases iS with
        | none =>
            simp only [pure, Except.pure] at hstd
            injection hstd with hstd
            rw [← hstd]
            rfl
        | some c =>
            obtain ⟨es, hes, h2⟩ := exceptBind_ok hstd
            by_cases hE : es.isEmpty = true
            · rw [if_pos hE] at h2
              exact resolveO_resolved ops env root tS v stdRes h2
            · rw [if_neg hE] at h2
              exact resolveO_resolved ops env root eS v stdRes h2
      have hruleR : isResolvedO ruleRes = true := by
        cases hli : d.logicIf with
        | none =>
            rw [hli] at hrule
            simp only [pure, Except.pure] at hrule
            injection hrule with hrule
            rw [← hrule]
            rfl
        | some rr =>
            rw [hli] at hrule
            obtain ⟨res, hres, h2⟩ := exceptBind_ok hrule
            by_cases hT : logicTruthy res = true
            · rw [if_pos hT] at h2
              exact resolveO_resolved ops env root lT v ruleRes h2
            · rw [if_neg hT] at h2
              exact resolveO_resolved ops env root lE v ruleRes h2
      rw [← h]
      exact isResolved_applyMerge (isResolved_applyMerge hbase hstdR) hruleR

/-- Resolution of an optional sub-schema yields a resolved result. -/
theorem resolveO_resolved (ops : CustomOps) (env : LogicEnv) (root : JSValue) :
    ∀ (os : OSchema) (v : JSValue) (r : OSchema),
      resolveO ops env root os v = .ok r → isResolvedO r = true
  | .none, v, r, h => by
      simp only [resolveO] at h
      injection h with h
      rw [← h]
      rfl
  | .some s, v, r, h => by
      simp only [resolveO] at h
      obtain ⟨r2, hr2, h⟩ := exceptBind_ok h
      injection h with h
      rw [← h]
      simpa [isResolvedO] using resolve_resolved ops env root s v r2 hr2

/-- Resolution of a property list yields resolved sub-schemas. -/
theorem resolveProps_resolved (ops : CustomOps) (env : LogicEnv) (root : JSValue) :
    ∀ (pl : PropList) (v : JSValue) (r : PropList),
      resolveProps ops env root pl v = .ok r → isResolvedP r = true
  | .nil, v, r, h => by
      simp only [resolveProps] at h
      injection h with h
      rw [← h]
      rfl
  | .cons name s tl, v, r, h => by
      simp only [resolveProps] at h
      obtain ⟨r2, hr2, h⟩ := exceptBind_ok h
      obtain ⟨rest, hrest, h⟩ := exceptBind_ok h
      injection h with h
      rw [← h]
      simp only [isResolvedP, Bool.and_eq_true]
      exact ⟨resolve_resolved ops env root s (getProp v name) r2 hr2,
        resolveProps_resolved ops env root tl v rest hrest⟩

/-- Resolution of a composition list yields resolved sub-schemas. -/
theorem resolveList_resolved (ops : CustomOps) (env : LogicEnv) (root : JSValue) :
    ∀ (sl : SchemaList) (v : JSValue) (r : SchemaList),
      resolveList ops env root sl v = .ok r → isResolvedL r = true
  | .nil, v, r, h => by
      simp only [resolveList] at h
      injection h with h
      rw [← h]
      rfl
  | .cons s tl, v, r, h => by
      simp only [resolveList] at h
      obtain ⟨r2, hr2, h⟩ := exceptBind_ok h
      obtain ⟨rest, hrest, h⟩ := exceptBind_ok h
      injection h with h
      rw [← h]
      simp only [isResolvedL, Bool.and_eq_true]
      exact ⟨resolve_resolved ops env root s v r2 hr2,
        resolveList_resolved ops env root tl v rest hrest⟩

/-- Resolution of an optional composition list yields a resolved result. -/
theorem resolveOL_resolved (ops : CustomOps) (env : LogicEnv) (root : JSValue) :
    ∀ (ol : OSchemaList) (v : JSValue) (r : OSchemaList),
      resolveOL ops env root ol v = .ok r → isResolvedOL r = true
  | .none, v, r, h => by
      simp only [resolveOL] at h
      injection h with h
      rw [← h]
      rfl
  | .some l, v, r, h => by
      simp only [resolveOL] at h
      obtain ⟨r2, hr2, h⟩ := exceptBind_ok h
      injection h with h
      rw [← h]
      simpa [isResolvedOL] using resolveList_resolved ops env root l v r2 hr2

end

mutual

/-- Resolving an already-resolved schema is the identity: no conditional
branch re-triggers a merge, every node is rebuilt unchanged. -/
theorem resolve_of_resolved (ops : CustomOps) (env : LogicEnv) (root : JSValue) :
    ∀ (s : Schema) (v : JSValue), isResolvedS s = true →
      resolve ops env root s v = .ok s
  | .boolS b, v, _ => by simp [resolve]
  | .node d props items aOf anyO oneO nS iS tS eS lT lE, v, h => by
      obtain ⟨dty, dc, de, dr, dli, dvd, dpr, dtt⟩ := d
      simp only [isResolvedS, Bool.and_eq_true] at h
      obtain ⟨⟨⟨⟨⟨⟨⟨⟨⟨⟨⟨hif, ht⟩, he⟩, hlt⟩, hle⟩, hli⟩, hp⟩, hi⟩, ha⟩, hy⟩,
        ho⟩, hn⟩ := h
      have hif2 : iS = .none := by
        cases iS with
        | none => rfl
        | some _ => simp [osNone] at hif
      have ht2 : tS = .none := by
        cases tS with
        | none => rfl
        | some _ => simp [osNone] at ht
      have he2 : eS = .none := by
        cases eS with
        | none => rfl
        | some _ => simp [osNone] at he
      have hlt2 : lT = .none := by
        cases lT with
        | none => rfl
        | some _ => simp [osNone] at hlt
      have hle2 : lE = .none := by
        cases lE with
        | none => rfl
        | some _ => simp [osNone] at hle
      have hli2 : dli = Option.none := by simpa using hli
      subst hif2 ht2 he2 hlt2 hle2 hli2
      simp only [resolve]
      rw [resolveProps_of_resolved ops env root props v hp,
        resolveO_of_resolved ops env root items .undefV hi,
        resolveList_of_resolved ops env root aOf v ha,
        resolveList_of_resolved ops env root anyO v hy,
        resolveOL_of_resolved ops env root oneO v ho,
        resolveO_of_resolved ops env root nS v hn]
      rfl

/-- Identity of resolution on a resolved optional sub-schema. -/
theorem resolveO_of_resolved (ops : CustomOps) (env : LogicEnv) (root : JSValue) :
    ∀ (os : OSchema) (v : JSValue), isResolvedO os = true →
      resolveO ops env root os v = .ok os
  | .none, v, _ => by simp [resolveO]
  | .some s, v, h => by
      simp only [resolveO]
      rw [resolve_of_resolved ops env root s v (by simpa [isResolvedO] using h)]
      rfl

/-- Identity of resolution on a resolved property list. -/
theorem resolveProps_of_resolved (ops : CustomOps) (env : LogicEnv) (root : JSValue) :
    ∀ (pl : PropList) (v : JSValue), isResolvedP pl = true →
      resolveProps ops env root pl v = .ok pl
  | .nil, v, _ => by simp [resolveProps]
  | .cons name s tl, v, h => by
      simp only [isResolvedP, Bool.and_eq_true] at h
      simp only [resolveProps]
      rw [resolve_of_resolved ops env root s (getProp v name) h.1,
        resolveProps_of_resolved ops env root tl v h.2]
      rfl

/-- Identity of resolution on a resolved composition list. -/
theorem resolveList_of_resolved (ops : CustomOps) (env : LogicEnv) (root : JSValue) :
    ∀ (sl : SchemaList) (v : JSValue), isResolvedL sl = true →
      resolveList ops env root sl v = .ok sl
  | .nil, v, _ => by simp [resolveList]
  | .cons s tl, v, h => by
      simp only [isResolvedL, Bool.and_eq_true] at h
      simp only [resolveList]
      rw [resolve_of_resolved ops env root s v h.1,
        resolveList_of_resolved ops env root tl v h.2]
      rfl

/-- Identity of resolution on a resolved optional composition list. -/
theorem resolveOL_of_resolved (ops : CustomOps) (env : LogicEnv) (root : JSValue) :
    ∀ (ol : OSchemaList) (v : JSValue), isResolvedOL ol = true →
      resolveOL ops env root ol v = .ok ol
  | .none, v, _ => by simp [resolveOL]
  | .some l, v, h => by
      simp only [resolveOL]
      rw [resolveList_of_resolved ops env root l v (by simpa [isResolvedOL] using h)]
      rfl

end

/-! ## Claim C3 (idempotence of resolution) -/

/-- C3: re-resolving an already-resolved tree against the same values is a
no-op — resolve(resolve(schema, v), v) equals resolve(schema, v), because the
output of resolution carries no conditional anywhere and a conditional-free
tree resolves to itself. -/
theorem C3_resolve_idempotent (ops : CustomOps) (env : LogicEnv)
    (root : JSValue) (s : Schema) (v : JSValue) (r : Schema)
    (h : resolve ops env root s v = .ok r) :
    resolve ops env root r v = .ok r :=
  resolve_of_resolved ops env root r v (resolve_resolved ops env root s v r h)

/-- The conditional example schema: `{properties: {t: {enum: ["biz","pers"]},
c: {type: "string"}}, if: {properties: {t: {const: "biz"}}},
then: {required: ["c"]}}`. -/
def condSchema : Schema :=
  .node emptyData
    (.cons "t" (mkNode { emptyData with
        enumV := Option.some (.cons (.str "biz") (.cons (.str "pers") .nil)) })
      (.cons "c" (mkNode { emptyData with ty := Option.some "string" }) .nil))
    .none .nil .nil .none .none
    (.some (.node emptyData (.cons "t" (constSchema (.str "biz")) .nil)
      .none .nil .nil .none .none .none .none .none .none .none))
    (.some (mkNode { emptyData with required := ["c"] }))
    .none .none .none

/-- The values `{t: "biz"}`. -/
def bizVal : JSValue := .obj (.cons "t" (.str "biz") .nil)

/-- The result of the first resolution of the conditional example. -/
def condResolved : Schema :=
  match resolve [] [] bizVal condSchema bizVal with
  | .ok r => r
  | .error _ => .boolS true

/-- C3, witness: the conditional example resolves with the then-branch merged,
and resolving the result again returns it unchanged. -/
theorem C3_witness :
    resolve [] [] bizVal condSchema bizVal = .ok condResolved ∧
    resolve [] [] bizVal condResolved bizVal = .ok condResolved :=
  ⟨rfl, C3_resolve_idempotent [] [] bizVal condSchema bizVal condResolved rfl⟩

/-! ## Well-formed configuration: every rule reference resolvable, every
operator known -/

/-- Whether every name in a validations reference list is bound in the logic
environment to a rule whose operators are all registered. -/
def refsKnown (ops : CustomOps) (env : LogicEnv) (names : List String) : Bool :=
  names.all fun n =>
    match envLookup env n with
    | Option.some rd => ruleOpsKnown ops rd.rule
    | Option.none => false

mutual

/-- Well-formed configuration of a schema: every rule-referenced validation
resolves in the environment, and every rule (referenced or conditional) uses
only registered operators — the absence of the two programmer-level
misconfigurations of §7 (unknown operator, malformed rule reference). -/
def wfS (ops : CustomOps) (env : LogicEnv) : Schema → Bool
  | .boolS _ => true
  | .node d props items aOf anyO oneO nS iS tS eS lT lE =>
      refsKnown ops env d.validations
        && (match d.logicIf with
            | Option.some r => ruleOpsKnown ops r
            | Option.none => true)
        && wfP ops env props && wfO ops env items && wfL ops env aOf
        && wfL ops env anyO && wfOL ops env oneO && wfO ops env nS
        && wfO ops env iS && wfO ops env tS && wfO ops env eS
        && wfO ops env lT && wfO ops env lE

/-- Well-formedness of an optional sub-schema. -/
def wfO (ops : CustomOps) (env : LogicEnv) : OSchema → Bool
  | .none => true
  | .some s => wfS ops env s

/-- Well-formedness of a property list. -/
def wfP (ops : CustomOps) (env : LogicEnv) : PropList → Bool
  | .nil => true
  | .cons _ s tl => wfS ops env s && wfP ops env tl

/-- Well-formedness of a composition list. -/
def wfL (ops : CustomOps) (env : LogicEnv) : SchemaList → Bool
  | .nil => true
  | .cons s tl => wfS ops env s && wfL ops env tl

/-- Well-formedness of an optional composition list. -/
def wfOL (ops : CustomOps) (env : LogicEnv) : OSchemaList → Bool
  | .none => true
  | .some l => wfL ops env l

end

/-- Under a well-formed reference list, reference validation never fails. -/
theorem validateRefs_ok (ops : CustomOps) (env : LogicEnv) (root : JSValue)
    (path : List PathSeg) :
    ∀ names : List String, refsKnown ops env names = true →
      ∃ es, validateRefs ops env root path names = .ok es
  | [], _ => ⟨[], rfl⟩
  | n :: tl, h => by
      simp only [refsKnown, List.all_cons, Bool.and_eq_true] at h
      cases hk : envLookup env n with
      | none => rw [hk] at h; simp at h
      | some rd =>
          rw [hk] at h
          obtain ⟨res, hres⟩ := evalRule_ok_of_known ops root rd.rule h.1
          obtain ⟨rest, hrest⟩ := validateRefs_ok ops env root path tl
            (by simpa [refsKnown] using h.2)
          simp only [validateRefs, hk, hres, hrest, bind, Except.bind]
          exact ⟨_, rfl⟩

/-- Collecting a list of successful results succeeds. -/
theorem collectErrs_ok : ∀ l : List (Except String (List VError)),
    (∀ x ∈ l, ∃ es, x = .ok es) → ∃ es, collectErrs l = .ok es
  | [], _ => ⟨[], rfl⟩
  | x :: tl, h => by
      obtain ⟨es1, h1⟩ := h x (by simp)
      obtain ⟨es2, h2⟩ := collectErrs_ok tl (fun y hy => h y (by simp [hy]))
      simp only [collectErrs, h1, h2, bind, Except.bind]
      exact ⟨_, rfl⟩

mutual

/-- Under a well-formed configuration, validation never fails, whatever the
shape of the value. -/
theorem validateS_ok (ops : CustomOps) (env : LogicEnv) (root : JSValue) :
    ∀ (s : Schema) (v : JSValue) (path : List PathSeg),
      wfS ops env s = true → ∃ es, validateS ops env root s v path = .ok es
  | .boolS b, v, path, _ => by
      simp only [validateS]
      split
      · exact ⟨[], rfl⟩
      · split
        · exact ⟨[], rfl⟩
        · exact ⟨_, rfl⟩
  | .node d props items aOf anyO oneO nS iS tS eS lT lE, v, path, h => by
      simp only [wfS, Bool.and_eq_true] at h
      obtain ⟨⟨⟨⟨⟨⟨⟨⟨⟨⟨⟨⟨hrefs, _hli⟩, hp⟩, hi⟩, ha⟩, hy⟩, ho⟩, hn⟩, _hif⟩,
        _ht⟩, _he⟩, _hlt⟩, _hle⟩ := h
      simp only [validateS]
      split
      · exact ⟨[], rfl⟩
      · split
        · exact ⟨_, rfl⟩
        · obtain ⟨e1, h1⟩ := validateRefs_ok ops env root path d.validations hrefs
          obtain ⟨e2, h2⟩ := validateProps_ok ops env root props v path hp
          obtain ⟨e3, h3⟩ := validateItemsPart_ok ops env root items v path hi
          obtain ⟨bs, h4⟩ := validateBranches_ok ops env root "allOf" aOf v path 0 ha
          obtain ⟨e5, h5⟩ := validateAnyOfPart_ok ops env root anyO v path hy
          obtain ⟨e6, h6⟩ := validateOneOfPart_ok ops env root oneO v path ho
          obtain ⟨e7, h7⟩ := validateNotPart_ok ops env root nS v path hn
          simp only [h1, h2, h3, h4, h5, h6, h7, bind, Except.bind]
          exact ⟨_, rfl⟩

/-- Items validation succeeds under a well-formed items schema. -/
theorem validateItemsPart_ok (ops : CustomOps) (env : LogicEnv) (root : JSValue) :
    ∀ (os : OSchema) (v : JSValue) (path : List PathSeg),
      wfO ops env os = true → ∃ es, validateItemsPart ops env root os v path = .ok es
  | .none, v, path, _ => ⟨[], rfl⟩
  | .some s2, v, path, h => by
      simp only [validateItemsPart]
      cases v with
      | arr l =>
          exact collectErrs_ok _ (fun x hx => by
            obtain ⟨p, _, rfl⟩ := List.mem_map.mp hx
            exact validateS_ok ops env root s2 p.2 _ (by simpa [wfO] using h))
      | undefV => exact ⟨[], rfl⟩
      | null => exact ⟨[], rfl⟩
      | bool b => exact ⟨[], rfl⟩
      | num q => exact ⟨[], rfl⟩
      | str s => exact ⟨[], rfl⟩
      | obj o => exact ⟨[], rfl⟩

/-- anyOf validation succeeds under well-formed branches. -/
theorem validateAnyOfPart_ok (ops : CustomOps) (env : LogicEnv) (root : JSValue) :
    ∀ (sl : SchemaList) (v : JSValue) (path : List PathSeg),
      wfL ops env sl = true → ∃ es, validateAnyOfPart ops env root sl v path = .ok es
  | .nil, v, path, _ => ⟨[], rfl⟩
  | .cons b bs, v, path, h => by
      simp only [wfL, Bool.and_eq_true] at h
      obtain ⟨e1, h1⟩ := validateS_ok ops env root b v
        (path ++ [.key "anyOf", .idx 0]) h.1
      obtain ⟨es, h2⟩ := validateBranches_ok ops env root "anyOf" bs v path 1 h.2
      simp only [validateAnyOfPart, h1, h2, bind, Except.bind]
      exact ⟨_, rfl⟩

/-- oneOf validation succeeds under well-formed branches. -/
theorem validateOneOfPart_ok (ops : CustomOps) (env : LogicEnv) (root : JSValue) :
    ∀ (ol : OSchemaList) (v : JSValue) (path : List PathSeg),
      wfOL ops env ol = true → ∃ es, validateOneOfPart ops env root ol v path = .ok es
  | .none, v, path, _ => ⟨[], rfl⟩
  | .some bs, v, path, h => by
      obtain ⟨es, h1⟩ := validateBranches_ok ops env root "oneOf" bs v path 0
        (by simpa [wfOL] using h)
      simp only [validateOneOfPart, h1, bind, Except.bind]
      exact ⟨_, rfl⟩

/-- not-validation succeeds under a well-formed sub-schema. -/
theorem validateNotPart_ok (ops : CustomOps) (env : LogicEnv) (root : JSValue) :
    ∀ (os : OSchema) (v : JSValue) (path : List PathSeg),
      wfO ops env os = true → ∃ es, validateNotPart ops env root os v path = .ok es
  | .none, v, path, _ => ⟨[], rfl⟩
  | .some s2, v, path, h => by
      obtain ⟨es, h1⟩ := validateS_ok ops env root s2 v path (by simpa [wfO] using h)
      simp only [validateNotPart, h1, bind, Except.bind]
      exact ⟨_, rfl⟩

/-- Property validation succeeds under well-formed sub-schemas. -/
theorem validateProps_ok (ops : CustomOps) (env : LogicEnv) (root : JSValue) :
    ∀ (pl : PropList) (v : JSValue) (path : List PathSeg),
      wfP ops env pl = true → ∃ es, validateProps ops env root pl v path = .ok es
  | .nil, v, path, _ => ⟨[], rfl⟩
  | .cons name s tl, v, path, h => by
      simp only [wfP, Bool.and_eq_true] at h
      obtain ⟨e1, h1⟩ := validateS_ok ops env root s (getProp v name)
        (path ++ [.key "properties", .key name]) h.1
      obtain ⟨es, h2⟩ := validateProps_ok ops env root tl v path h.2
      simp only [validateProps, h1, h2, bind, Except.bind]
      exact ⟨_, rfl⟩

/-- Per-branch validation succeeds under well-formed branches. -/
theorem validateBranches_ok (ops : CustomOps) (env : LogicEnv) (root : JSValue)
    (kw : String) :
    ∀ (sl : SchemaList) (v : JSValue) (path : List PathSeg) (i : ℕ),
      wfL ops env sl = true →
      ∃ es, validateBranches ops env root kw sl v path i = .ok es
  | .nil, v, path, i, _ => ⟨[], rfl⟩
  | .cons s tl, v, path, i, h => by
      simp only [wfL, Bool.and_eq_true] at h
      obtain ⟨e1, h1⟩ := validateS_ok ops env root s v
        (path ++ [.key kw, .idx i]) h.1
      obtain ⟨es, h2⟩ := validateBranches_ok ops env root kw tl v path (i + 1) h.2
      simp only [validateBranches, h1, h2, bind, Except.bind]
      exact ⟨_, rfl⟩

end

/-! ### Merging preserves well-formedness -/

theorem wf_mergeOS {ops : CustomOps} {env : LogicEnv} {a b : OSchema}
    (ha : wfO ops env a = true) (hb : wfO ops env b = true) :
    wfO ops env (mergeOS a b) = true := by
  cases b <;> simp_all [mergeOS, wfO]

theorem wf_mergeSL {ops : CustomOps} {env : LogicEnv} {a b : SchemaList}
    (ha : wfL ops env a = true) (hb : wfL ops env b = true) :
    wfL ops env (mergeSL a b) = true := by
  cases b <;> simp_all [mergeSL, wfL]

theorem wf_mergeOSL {ops : CustomOps} {env : LogicEnv} {a b : OSchemaList}
    (ha : wfOL ops env a = true) (hb : wfOL ops env b = true) :
    wfOL ops env (mergeOSL a b) = true := by
  cases b <;> simp_all [mergeOSL, wfOL]

theorem refsKnown_mergeListKw {ops : CustomOps} {env : LogicEnv}
    {a b : List String} (ha : refsKnown ops env a = true)
    (hb : refsKnown ops env b = true) :
    refsKnown ops env (mergeListKw a b) = true := by
  cases b <;> simp_all [mergeListKw]

theorem logicKnown_mergeOpt {ops : CustomOps} {a b : Option RuleExpr}
    (ha : (match a with
           | Option.some r => ruleOpsKnown ops r
           | Option.none => true) = true)
    (hb : (match b with
           | Option.some r => ruleOpsKnown ops r
           | Option.none => true) = true) :
    (match mergeOpt a b with
     | Option.some r => ruleOpsKnown ops r
     | Option.none => true) = true := by
  cases b <;> simp_all [mergeOpt]

theorem wfS_plLookup {ops : CustomOps} {env : LogicEnv} :
    ∀ (pb : PropList) (n : String) (t : Schema),
      wfP ops env pb = true → plLookup pb n = Option.some t →
      wfS ops env t = true
  | .nil, n, t, _, hk => by simp [plLookup] at hk
  | .cons n2 s tl, n, t, hp, hk => by
      simp only [wfP, Bool.and_eq_true] at hp
      by_cases he : n2 = n
      · simp only [plLookup, he, if_pos rfl] at hk
        injection hk with hk
        exact hk ▸ hp.1
      · simp only [plLookup, he, if_false] at hk
        exact wfS_plLookup tl n t hp.2 hk

theorem wfP_propsNotIn {ops : CustomOps} {env : LogicEnv} :
    ∀ (pb pa : PropList), wfP ops env pb = true →
      wfP ops env (propsNotIn pb pa) = true
  | .nil, _, _ => rfl
  | .cons n s tl, pa, hp => by
      simp only [wfP, Bool.and_eq_true] at hp
      by_cases hk : plHasKey pa n = true <;>
        simp [propsNotIn, hk, wfP, hp.1, wfP_propsNotIn tl pa hp.2]

theorem wfP_plAppend {ops : CustomOps} {env : LogicEnv} :
    ∀ (a b : PropList), wfP ops env a = true → wfP ops env b = true →
      wfP ops env (plAppend a b) = true
  | .nil, b, _, hb => by simpa [plAppend]
  | .cons n s tl, b, ha, hb => by
      simp only [wfP, Bool.and_eq_true] at ha
      simp [plAppend, wfP, ha.1, wfP_plAppend tl b ha.2 hb]

mutual

/-- Merging two well-formed schemas yields a well-formed schema. -/
theorem wf_merge (ops : CustomOps) (env : LogicEnv) : ∀ (a b : Schema),
    wfS ops env a = true → wfS ops env b = true →
    wfS ops env (mergeSchema a b) = true
  | .boolS _, b, _, hb => by simpa [mergeSchema] using hb
  | .node da pa ia aa ya oa na ifa ta ea lta lea, .boolS _, ha, _ => by
      simpa [mergeSchema] using ha
  | .node da pa ia aa ya oa na ifa ta ea lta lea,
    .node db pb ib ab yb ob nb ifb tb eb ltb leb, ha, hb => by
      simp only [wfS, Bool.and_eq_true] at ha hb
      obtain ⟨⟨⟨⟨⟨⟨⟨⟨⟨⟨⟨⟨hra, hla⟩, hpa⟩, hia⟩, haa⟩, hya⟩, hoa⟩, hna⟩, hifa⟩,
        hta⟩, hea⟩, hlta⟩, hlea⟩ := ha
      obtain ⟨⟨⟨⟨⟨⟨⟨⟨⟨⟨⟨⟨hrb, hlb⟩, hpb⟩, hib⟩, hab⟩, hyb⟩, hob⟩, hnb⟩, hifb⟩,
        htb⟩, heb⟩, hltb⟩, hleb⟩ := hb
      simp only [mergeSchema, wfS, Bool.and_eq_true]
      refine ⟨⟨⟨⟨⟨⟨⟨⟨⟨⟨⟨⟨refsKnown_mergeListKw hra hrb, logicKnown_mergeOpt hla hlb⟩,
        ?_⟩, wf_mergeOS hia hib⟩, wf_mergeSL haa hab⟩, wf_mergeSL hya hyb⟩,
        wf_mergeOSL hoa hob⟩, wf_mergeOS hna hnb⟩, wf_mergeOS hifa hifb⟩,
        wf_mergeOS hta htb⟩, wf_mergeOS hea heb⟩, wf_mergeOS hlta hltb⟩,
        wf_mergeOS hlea hleb⟩
      exact wfP_plAppend _ _ (wf_mergePropsLeft ops env pa pb hpa hpb)
        (wfP_propsNotIn pb pa hpb)

/-- The left part of a property merge preserves well-formedness. -/
theorem wf_mergePropsLeft (ops : CustomOps) (env : LogicEnv) : ∀ (pa pb : PropList),
    wfP ops env pa = true → wfP ops env pb = true →
    wfP ops env (mergePropsLeft pa pb) = true
  | .nil, _, _, _ => by simp [mergePropsLeft, wfP]
  | .cons n s tl, pb, ha, hb => by
      simp only [wfP, Bool.and_eq_true] at ha
      cases hk : plLookup pb n with
      | none =>
          simp [mergePropsLeft, hk, wfP, ha.1,
            wf_mergePropsLeft ops env tl pb ha.2 hb]
      | some t =>
          have ht := wfS_plLookup pb n t hb hk
          simp [mergePropsLeft, hk, wfP, wf_merge ops env s t ha.1 ht,
            wf_mergePropsLeft ops env tl pb ha.2 hb]

end

/-- Applying an optional branch merge preserves well-formedness. -/
theorem wf_applyMerge {ops : CustomOps} {env : LogicEnv} {base : Schema}
    {o : OSchema} (hb : wfS ops env base = true) (ho : wfO ops env o = true) :
    wfS ops env (applyMerge base o) = true := by
  cases o with
  | none => simpa [applyMerge] using hb
  | some b =>
      simpa [applyMerge] using wf_merge ops env _ _ hb (by simpa [wfO] using ho)

mutual

/-- Under a well-formed configuration resolution never fails and its output is
again well-formed. -/
theorem resolve_ok_wf (ops : CustomOps) (env : LogicEnv) (root : JSValue) :
    ∀ (s : Schema) (v : JSValue), wfS ops env s = true →
      ∃ r, resolve ops env root s v = .ok r ∧ wfS ops env r = true
  | .boolS b, v, _ => ⟨.boolS b, rfl, rfl⟩
  | .node d props items aOf anyO oneO nS iS tS eS lT lE, v, h => by
      simp only [wfS, Bool.and_eq_true] at h
      obtain ⟨⟨⟨⟨⟨⟨⟨⟨⟨⟨⟨⟨hrefs, hli⟩, hp⟩, hi⟩, ha⟩, hy⟩, ho⟩, hn⟩, hif⟩,
        ht⟩, he⟩, hlt⟩, hle⟩ := h
      obtain ⟨props2, hp2, hwp2⟩ := resolveProps_ok_wf ops env root props v hp
      obtain ⟨items2, hi2, hwi2⟩ := resolveO_ok_wf ops env root items .undefV hi
      obtain ⟨aOf2, ha2, hwa2⟩ := resolveList_ok_wf ops env root aOf v ha
      obtain ⟨anyO2, hy2, hwy2⟩ := resolveList_ok_wf ops env root anyO v hy
      obtain ⟨oneO2, ho2, hwo2⟩ := resolveOL_ok_wf ops env root oneO v ho
      obtain ⟨nS2, hn2, hwn2⟩ := resolveO_ok_wf ops env root nS v hn
      have hstd : ∃ o,
          (match iS with
           | OSchema.none => Except.ok OSchema.none
           | OSchema.some c =>
               Except.bind (validateS ops env root c v []) (fun es =>
                 if es.isEmpty then resolveO ops env root tS v
                 else resolveO ops env root eS v)) = .ok o
          ∧ wfO ops env o = true := by
        cases iS with
        | none => exact ⟨.none, rfl, rfl⟩
        | some c =>
            obtain ⟨es, hes⟩ := validateS_ok ops env root c v []
              (by simpa [wfO] using hif)
            by_cases hE : es.isEmpty = true
            · obtain ⟨o, hoE, hoW⟩ := resolveO_ok_wf ops env root tS v ht
              exact ⟨o, by simp [hes, Except.bind, hE, hoE], hoW⟩
            · obtain ⟨o, hoE, hoW⟩ := resolveO_ok_wf ops env root eS v he
              exact ⟨o, by simp [hes, Except.bind, hE, hoE], hoW⟩
      obtain ⟨stdRes, hstdE, hstdW⟩ := hstd
      have hrule : ∃ o,
          (match d.logicIf with
           | Option.none => Except.ok OSchema.none
           | Option.some r =>
               Except.bind (evalRule ops root r) (fun res =>
                 if logicTruthy res then resolveO ops env root lT v
                 else resolveO ops env root lE v)) = .ok o
          ∧ wfO ops env o = true := by
        cases hLI : d.logicIf with
        | none => exact ⟨.none, rfl, rfl⟩
        | some r =>
            rw [hLI] at hli
            obtain ⟨res, hres⟩ := evalRule_ok_of_known ops root r hli
            by_cases hT : logicTruthy res = true
            · obtain ⟨o, hoE, hoW⟩ := resolveO_ok_wf ops env root lT v hlt
              exact ⟨o, by simp [hres, Except.bind, hT, hoE], hoW⟩
            · obtain ⟨o, hoE, hoW⟩ := resolveO_ok_wf ops env root lE v hle
              exact ⟨o, by simp [hres, Except.bind, hT, hoE], hoW⟩
      obtain ⟨ruleRes, hruleE, hruleW⟩ := hrule
      have hbaseW : wfS ops env
          (resolvedBase d props2 items2 aOf2 anyO2 oneO2 nS2) = true := by
        simp only [resolvedBase, wfS, Bool.and_eq_true]
        exact ⟨⟨⟨⟨⟨⟨⟨⟨⟨⟨⟨⟨hrefs, trivial⟩, hwp2⟩, hwi2⟩, hwa2⟩, hwy2⟩, hwo2⟩,
          hwn2⟩, rfl⟩, rfl⟩, rfl⟩, rfl⟩, rfl⟩
      refine ⟨applyMerge (applyMerge
          (resolvedBase d props2 items2 aOf2 anyO2 oneO2 nS2) stdRes) ruleRes,
        ?_, wf_applyMerge (wf_applyMerge hbaseW hstdW) hruleW⟩
      simp only [resolve]
      rw [hp2, exceptBind_ok_eq, hi2, exceptBind_ok_eq, ha2, exceptBind_ok_eq,
        hy2, exceptBind_ok_eq, ho2, exceptBind_ok_eq, hn2, exceptBind_ok_eq,
        hstdE, exceptBind_ok_eq, hruleE, exceptBind_ok_eq]

/-- Resolution of an optional sub-schema succeeds under well-formedness. -/
theorem resolveO_ok_wf (ops : CustomOps) (env : LogicEnv) (root : JSValue) :
    ∀ (os : OSchema) (v : JSValue), wfO ops env os = true →
      ∃ r, resolveO ops env root os v = .ok r ∧ wfO ops env r = true
  | .none, v, _ => ⟨.none, rfl, rfl⟩
  | .some s, v, h => by
      obtain ⟨r, hr, hw⟩ := resolve_ok_wf ops env root s v (by simpa [wfO] using h)
      exact ⟨.some r, by simp [resolveO, hr, bind, Except.bind],
        by simpa [wfO] using hw⟩

/-- Resolution of a property list succeeds under well-formedness. -/
theorem resolveProps_ok_wf (ops : CustomOps) (env : LogicEnv) (root : JSValue) :
    ∀ (pl : PropList) (v : JSValue), wfP ops env pl = true →
      ∃ r, resolveProps ops env root pl v = .ok r ∧ wfP ops env r = true
  | .nil, v, _ => ⟨.nil, rfl, rfl⟩
  | .cons name s tl, v, h => by
      simp only [wfP, Bool.and_eq_true] at h
      obtain ⟨r, hr, hw⟩ := resolve_ok_wf ops env root s (getProp v name) h.1
      obtain ⟨rest, hrest, hwrest⟩ := resolveProps_ok_wf ops env root tl v h.2
      exact ⟨.cons name r rest,
        by simp [resolveProps, hr, hrest, bind, Except.bind],
        by simp [wfP, hw, hwrest]⟩

/-- Resolution of a composition list succeeds under well-formedness. -/
theorem resolveList_ok_wf (ops : CustomOps) (env : LogicEnv) (root : JSValue) :
    ∀ (sl : SchemaList) (v : JSValue), wfL ops env sl = true →
      ∃ r, resolveList ops env root sl v = .ok r ∧ wfL ops env r = true
  | .nil, v, _ => ⟨.nil, rfl, rfl⟩
  | .cons s tl, v, h => by
      simp only [wfL, Bool.and_eq_true] at h
      obtain ⟨r, hr, hw⟩ := resolve_ok_wf ops env root s v h.1
      obtain ⟨rest, hrest, hwrest⟩ := resolveList_ok_wf ops env root tl v h.2
      exact ⟨.cons r rest,
        by simp [resolveList, hr, hrest, bind, Except.bind],
        by simp [wfL, hw, hwrest]⟩

/-- Resolution of an optional composition list succeeds under
well-formedness. -/
theorem resolveOL_ok_wf (ops : CustomOps) (env : LogicEnv) (root : JSValue) :
    ∀ (ol : OSchemaList) (v : JSValue), wfOL ops env ol = true →
      ∃ r, resolveOL ops env root ol v = .ok r ∧ wfOL ops env r = true
  | .none, v, _ => ⟨.none, rfl, rfl⟩
  | .some l, v, h => by
      obtain ⟨r, hr, hw⟩ := resolveList_ok_wf ops env root l v
        (by simpa [wfOL] using h)
      exact ⟨.some r, by simp [resolveOL, hr, bind, Except.bind],
        by simpa [wfOL] using hw⟩

end

/-! ## FormErrors and their assembly

Modelled from the spec (§3, §4.5): the recursive FormErrors mapping — leaf
message strings, nested maps for object fields, index-aligned arrays with
null holes for array fields — assembled from the reconciled error paths with
first-match-wins on duplicate leaves. -/

mutual

/-- A form-errors value: a leaf message, a nested map, or an array. -/
inductive FErr where
  | leaf (msg : String)
  | node (m : FMap)
  | arrE (a : FArr)

/-- A form-errors map keyed by field name. -/
inductive FMap where
  | nil
  | cons (k : String) (v : FErr) (tl : FMap)

/-- An index-aligned array of optional form-errors (consNone is a null hole). -/
inductive FArr where
  | nil
  | consNone (tl : FArr)
  | consSome (v : FErr) (tl : FArr)

end

/-- Lookup in a form-errors map. -/
def getM : FMap → String → Option FErr
  | .nil, _ => Option.none
  | .cons k2 v tl, k => if k2 = k then Option.some v else getM tl k

/-- Insertion or replacement in a form-errors map. -/
def setM : FMap → String → FErr → FMap
  | .nil, k, v => .cons k v .nil
  | .cons k2 v2 tl, k, v =>
      if k2 = k then .cons k2 v tl else .cons k2 v2 (setM tl k v)

/-- Lookup at an index of a form-errors array. -/
def getA : FArr → ℕ → Option FErr
  | .nil, _ => Option.none
  | .consNone _, 0 => Option.none
  | .consSome v _, 0 => Option.some v
  | .consNone tl, n + 1 => getA tl n
  | .consSome _ tl, n + 1 => getA tl n

/-- Insertion at an index of a form-errors array, padding with null holes. -/
def setA : FArr → ℕ → FErr → FArr
  | .nil, 0, v => .consSome v .nil
  | .nil, n + 1, v => .consNone (setA .nil n v)
  | .consNone tl, 0, v => .consSome v tl
  | .consSome _ tl, 0, v => .consSome v tl
  | .consNone tl, n + 1, v => .consNone (setA tl n v)
  | .consSome w tl, n + 1, v => .consSome w (setA tl n v)

/-- Insertion of one message at a reconciled path: string segments address
maps, index segments address arrays; an existing leaf wins over a later error
at the same or a deeper location (first-match-wins), and a shape mismatch
keeps the existing entry. -/
def setPathO : Option FErr → List PathSeg → String → FErr
  | cur, [], msg =>
      match cur with
      | Option.some c => c
      | Option.none => .leaf msg
  | cur, .key k :: rest, msg =>
      match cur with
      | Option.some (.leaf s) => .leaf s
      | Option.some (.arrE a) => .arrE a
      | Option.some (.node m) => .node (setM m k (setPathO (getM m k) rest msg))
      | Option.none => .node (setM .nil k (setPathO Option.none rest msg))
  | cur, .idx n :: rest, msg =>
      match cur with
      | Option.some (.leaf s) => .leaf s
      | Option.some (.node m) => .node m
      | Option.some (.arrE a) => .arrE (setA a n (setPathO (getA a n) rest msg))
      | Option.none => .arrE (setA .nil n (setPathO Option.none rest msg))

/-- Insertion of one validation error into the root form-errors map, its raw
path first rewritten by the reconciler. -/
def insertError (m : FMap) (e : VError) : FMap :=
  match setPathO (Option.some (.node m)) (reconcilePath e.path) e.message with
  | .node m2 => m2
  | _ => m

/-- Left fold of error insertion, in validator traversal order. -/
def buildFMap : List VError → FMap → FMap
  | [], m => m
  | e :: tl, m => buildFMap tl (insertError m e)

/-- The assembled form errors: absent when no error remains. -/
def buildFormErrors (errs : List VError) : Option FMap :=
  match buildFMap errs .nil with
  | .nil => Option.none
  | .cons k v tl => Option.some (.cons k v tl)

/-! ## Field Tree Builder

Modelled from the spec (§4.4): not under src/.  The builder consumes the
resolved schema and produces the field descriptors: classification defaults
by schema shape with the presentation inputType as explicit override,
required from the parent required list, visibility defaulting to true,
options extracted from enum or from constant-valued oneOf/anyOf branches —
skipped entirely when an async-options configuration block is present, which
is carried verbatim instead — and recursion into object properties and
array-of-object items. -/

mutual

/-- A field descriptor (the modelled fragment of the Field output type). -/
inductive Field where
  | mk (name : String) (inputType : String) (required : Bool) (isVisible : Bool)
      (options : Option (List (String × JSValue))) (asyncOptions : Option JSObj)
      (fields : FieldList)

/-- An ordered list of field descriptors. -/
inductive FieldList where
  | nil
  | cons (f : Field) (tl : FieldList)

end

/-- Options extracted from an enum list: the string form as label. -/
def enumToOptions : JSList → List (String × JSValue)
  | .nil => []
  | .cons v tl => (jsToString v, v) :: enumToOptions tl

/-- Options extracted from constant-valued composition branches: the branch
title as label, falling back to the string form of the constant. -/
def constOptions : SchemaList → List (String × JSValue)
  | .nil => []
  | .cons (.boolS _) tl => constOptions tl
  | .cons (.node d _ _ _ _ _ _ _ _ _ _ _) tl =>
      match d.constV with
      | Option.some c => (d.title.getD (jsToString c), c) :: constOptions tl
      | Option.none => constOptions tl

/-- Static option extraction of a node: enum first, else constant-valued
oneOf branches, else constant-valued anyOf branches. -/
def extractOptions (d : SchemaData) (anyO : SchemaList) (oneO : OSchemaList) :
    Option (List (String × JSValue)) :=
  match d.enumV with
  | Option.some l => Option.some (enumToOptions l)
  | Option.none =>
      match oneO with
      | .some bs => Option.some (constOptions bs)
      | .none =>
          match anyO with
          | .cons b bs => Option.some (constOptions (.cons b bs))
          | .nil => Option.none

/-- The classification default of §4.4 for the modelled fragment. -/
def defaultInputType (d : SchemaData) (oneO : OSchemaList) : String :=
  match d.ty with
  | Option.some "object" => "fieldset"
  | Option.some "boolean" => "checkbox"
  | Option.some "number" => "number"
  | Option.some "integer" => "number"
  | Option.some "array" => "group-array"
  | _ =>
      match oneO with
      | .some (.cons _ _) => "radio"
      | _ =>
          match d.enumV with
          | Option.some _ => "select"
          | Option.none => "text"

/-- The inputType of a node: the explicit presentation override when present,
else the shape default. -/
def fieldInputType (d : SchemaData) (oneO : OSchemaList) : String :=
  match objLookup d.present "inputType" with
  | Option.some (.str t) => t
  | _ => defaultInputType d oneO

/-- Concatenation of field lists. -/
def fieldsAppend : FieldList → FieldList → FieldList
  | .nil, b => b
  | .cons f tl, b => .cons f (fieldsAppend tl b)

/-- Assembly of a single object-node field from its data and its already
built children.  When the presentation carries an asyncOptions object the
configuration is carried verbatim and static option extraction is skipped;
otherwise static options are extracted and no async block is set. -/
def mkFieldNode (parentReq : List String) (name : String) (d : SchemaData)
    (anyO : SchemaList) (oneO : OSchemaList) (children : FieldList) : Field :=
  match objLookup d.present "asyncOptions" with
  | Option.some (.obj cfg) =>
      .mk name (fieldInputType d oneO) (parentReq.contains name) true
        Option.none (Option.some cfg) children
  | _ =>
      .mk name (fieldInputType d oneO) (parentReq.contains name) true
        (extractOptions d anyO oneO) Option.none children

mutual

/-- The field built for one named sub-schema under the required list of its
parent.  When the presentation carries an asyncOptions object the
configuration is carried verbatim and static option extraction is skipped;
otherwise static options are extracted and no async block is set.  The child
fields are the object properties, then the properties of an array-of-object
items schema. -/
def buildField (parentReq : List String) (name : String) : Schema → Field
  | .boolS _ =>
      .mk name "text" (parentReq.contains name) true Option.none Option.none .nil
  | .node d props items aOf anyO oneO nS iS tS eS lT lE =>
      mkFieldNode parentReq name d anyO oneO
        (fieldsAppend (buildProps d.required props) (buildItems items))

/-- The fields contributed by an items schema: the properties of an
array-of-object items node, else none. -/
def buildItems : OSchema → FieldList
  | .some (.node di pi _ _ _ _ _ _ _ _ _ _) => buildProps di.required pi
  | _ => .nil

/-- The fields of a property list, in declaration order. -/
def buildProps (req : List String) : PropList → FieldList
  | .nil => .nil
  | .cons n s tl => .cons (buildField req n s) (buildProps req tl)

end

/-- The root field list of a resolved object schema: its object properties,
then the properties of an array-of-object items schema. -/
def buildFields : Schema → FieldList
  | .boolS _ => .nil
  | .node d props items _ _ _ _ _ _ _ _ _ =>
      fieldsAppend (buildProps d.required props) (buildItems items)

/-! ## Pipeline Orchestrator -/

/-- Whether a computation succeeded. -/
def exceptIsOk {α : Type} : Except String α → Bool
  | .ok _ => true
  | .error _ => false

/-- Modelled from the spec: `handleValidation(values)` of the form result
(§6, §7), which is not under src/ — resolve the schema against the submitted
values, validate the values against the resolved schema, and assemble the
reconciled FormErrors.  Value-validation problems are returned inside the
form errors; only rule-evaluation failures escape as Except errors. -/
def handleValidation (ops : CustomOps) (env : LogicEnv) (schema : Schema)
    (values : JSValue) : Except String (Option FMap) :=
  Except.bind (resolve ops env values schema values) (fun r =>
  Except.bind (validateS ops env values r values []) (fun errs =>
  Except.ok (buildFormErrors errs)))

/-- Modelled from the spec: the full pipeline for one value snapshot (§2,
§4.6) — resolve once, then validate and build the field tree from the same
resolved schema, and reconcile the errors. -/
def runPipeline (ops : CustomOps) (env : LogicEnv) (schema : Schema)
    (values : JSValue) : Except String (Schema × FieldList × Option FMap) :=
  Except.bind (resolve ops env values schema values) (fun r =>
  Except.bind (validateS ops env values r values []) (fun errs =>
  Except.ok (r, buildFields r, buildFormErrors errs)))

/-! ## Claim C5 (handleValidation never throws for data) -/

/-- C5: under a well-formed configuration — every rule-referenced validation
resolves and every rule uses only registered operators — handleValidation
succeeds for every shape of input value data, all value problems being
reported inside the form errors; and conversely a thrown failure implies the
configuration was misconfigured (an unknown operator or a malformed rule
reference exists). -/
theorem C5_handleValidation_no_throw (ops : CustomOps) (env : LogicEnv)
    (schema : Schema) :
    (wfS ops env schema = true → ∀ values : JSValue,
      exceptIsOk (handleValidation ops env schema values) = true)
    ∧ (∀ (values : JSValue) (e : String),
        handleValidation ops env schema values = .error e →
        wfS ops env schema = false) := by
  have main : wfS ops env schema = true → ∀ values : JSValue,
      exceptIsOk (handleValidation ops env schema values) = true := by
    intro hwf values
    obtain ⟨r, hr, hwr⟩ := resolve_ok_wf ops env values schema values hwf
    obtain ⟨es, hes⟩ := validateS_ok ops env values r values [] hwr
    simp [handleValidation, hr, hes, exceptBind_ok_eq, exceptIsOk]
  refine ⟨main, ?_⟩
  intro values e herr
  cases hwf : wfS ops env schema with
  | false => rfl
  | true =>
      have := main hwf values
      rw [herr] at this
      simp [exceptIsOk] at this

/-- C5, witness: the age-rule form is well-formed, and handleValidation
succeeds on the concrete values `{age: 17}`. -/
theorem C5_witness :
    exceptIsOk (handleValidation [] minAgeEnv (ruleField "minAge") (ageVal 17))
      = true :=
  (C5_handleValidation_no_throw [] minAgeEnv (ruleField "minAge")).1
    (by decide) (ageVal 17)

/-! ## Claim C1 (pipeline determinism) -/

/-- C1: the pipeline is a deterministic function of its inputs — for a fixed
schema, fixed values and a fixed custom-operator set, any two runs produce
structurally equal resolved schemas, field trees and form errors.  The
embedding is a pure function of (schema, values, operator table, logic
environment), so the two observations coincide. -/
theorem C1_pipeline_deterministic (ops : CustomOps) (env : LogicEnv)
    (schema : Schema) (values : JSValue)
    (o1 o2 : Except String (Schema × FieldList × Option FMap))
    (h1 : runPipeline ops env schema values = o1)
    (h2 : runPipeline ops env schema values = o2) : o1 = o2 :=
  h1 ▸ h2 ▸ rfl

/-- The first of two independent pipeline runs on the age form. -/
def pipeRunA : Except String (Schema × FieldList × Option FMap) :=
  runPipeline [] minAgeEnv (ruleField "minAge") (ageVal 17)

/-- The second, independent pipeline run on the same inputs. -/
def pipeRunB : Except String (Schema × FieldList × Option FMap) :=
  runPipeline [] minAgeEnv (ruleField "minAge") (ageVal 17)

/-- C1, witness: the two independent runs are structurally equal. -/
theorem C1_witness : pipeRunA = pipeRunB :=
  C1_pipeline_deterministic [] minAgeEnv (ruleField "minAge") (ageVal 17)
    pipeRunA pipeRunB rfl rfl

/-! ## Claim C8 (options and asyncOptions are mutually exclusive) -/

/-- Whether a field has a non-empty static options list. -/
def fieldOptionsNonEmpty : Field → Bool
  | .mk _ _ _ _ (Option.some (_ :: _)) _ _ => true
  | _ => false

/-- Whether a field carries an async-options configuration block. -/
def fieldAsyncDefined : Field → Bool
  | .mk _ _ _ _ _ (Option.some _) _ => true
  | _ => false

mutual

/-- Mutual exclusivity of static options and async options, everywhere in a
field tree. -/
def fieldExclusive : Field → Bool
  | .mk _ _ _ _ options async children =>
      !((match options with
         | Option.some (_ :: _) => true
         | _ => false)
        && async.isSome)
        && fieldsExclusive children

/-- fieldExclusive over a field list. -/
def fieldsExclusive : FieldList → Bool
  | .nil => true
  | .cons f tl => fieldExclusive f && fieldsExclusive tl

end

/-- Exclusivity of appended field lists. -/
theorem fieldsExclusive_append : ∀ (a b : FieldList),
    fieldsExclusive a = true → fieldsExclusive b = true →
    fieldsExclusive (fieldsAppend a b) = true
  | .nil, b, _, hb => by simpa [fieldsAppend]
  | .cons f tl, b, ha, hb => by
      simp only [fieldsExclusive, Bool.and_eq_true] at ha
      simp [fieldsAppend, fieldsExclusive, ha.1,
        fieldsExclusive_append tl b ha.2 hb]

/-- Exclusivity of the field assembled at one node, given exclusivity of its
children: in the async branch the options are left absent, in the static
branch no async block is set. -/
theorem mkFieldNode_exclusive (req : List String) (name : String)
    (d : SchemaData) (anyO : SchemaList) (oneO : OSchemaList)
    (children : FieldList)
    (hch : fieldsExclusive children = true) :
    fieldExclusive (mkFieldNode req name d anyO oneO children) = true := by
  unfold mkFieldNode
  split <;> simp [fieldExclusive, hch]

/-- Unfolding of buildField at an object node. -/
theorem buildField_node_eq (req : List String) (name : String)
    (d : SchemaData) (props : PropList) (items : OSchema)
    (aOf anyO : SchemaList) (oneO : OSchemaList) (nS iS tS eS lT lE : OSchema) :
    buildField req name (.node d props items aOf anyO oneO nS iS tS eS lT lE)
      = mkFieldNode req name d anyO oneO
          (fieldsAppend (buildProps d.required props) (buildItems items)) := rfl

mutual

/-- Every field the builder produces satisfies the exclusivity invariant, in
the whole tree. -/
theorem buildField_exclusive : ∀ (req : List String) (name : String) (s : Schema),
    fieldExclusive (buildField req name s) = true
  | req, name, .boolS b => by simp [buildField, fieldExclusive, fieldsExclusive]
  | req, name, .node d props items aOf anyO oneO nS iS tS eS lT lE => by
      rw [buildField_node_eq]
      exact mkFieldNode_exclusive req name d anyO oneO _
        (fieldsExclusive_append _ _ (buildProps_exclusive d.required props)
          (buildItemsAux items))

/-- Exclusivity of the item-children part. -/
theorem buildItemsAux : ∀ items : OSchema,
    fieldsExclusive (buildItems items) = true
  | .none => rfl
  | .some (.boolS _) => rfl
  | .some (.node di pi _ _ _ _ _ _ _ _ _ _) => buildProps_exclusive di.required pi

/-- Exclusivity of all fields built from a property list. -/
theorem buildProps_exclusive : ∀ (req : List String) (pl : PropList),
    fieldsExclusive (buildProps req pl) = true
  | req, .nil => rfl
  | req, .cons n s tl => by
      simp [buildProps, fieldsExclusive, buildField_exclusive req n s,
        buildProps_exclusive req tl]

end

/-- C8: a field never has both a non-empty options list and a defined
asyncOptions block — whenever the schema node carries an async-options
configuration, static option extraction is skipped — and the invariant holds
for every field of every tree the builder produces. -/
theorem C8_options_async_exclusive :
    (∀ f : Field, fieldExclusive f = true →
      ¬(fieldOptionsNonEmpty f = true ∧ fieldAsyncDefined f = true))
    ∧ (∀ s : Schema, fieldsExclusive (buildFields s) = true)
    ∧ (∀ (req : List String) (name : String) (s : Schema),
        fieldExclusive (buildField req name s) = true) := by
  refine ⟨?_, ?_, buildField_exclusive⟩
  · intro f hf hcontra
    obtain ⟨h1, h2⟩ := hcontra
    cases f with
    | mk name it r vis options async children =>
        cases options with
        | none => simp [fieldOptionsNonEmpty] at h1
        | some l =>
            cases l with
            | nil => simp [fieldOptionsNonEmpty] at h1
            | cons x xs =>
                cases async with
                | none => simp [fieldAsyncDefined] at h2
                | some cfg => simp [fieldExclusive] at hf
  · intro s
    cases s with
    | boolS b => rfl
    | node d props items aOf anyO oneO nS iS tS eS lT lE =>
        exact fieldsExclusive_append _ _ (buildProps_exclusive d.required props)
          (buildItemsAux items)

/-- C8, witness: the exclusivity reading applied to the field built for a
select with async options — its options are absent even though the schema
also carries an enum. -/
theorem C8_witness :
    ¬(fieldOptionsNonEmpty (buildField [] "country"
        (.node { emptyData with
            enumV := Option.some (.cons (.str "us") .nil),
            present := .cons "asyncOptions"
              (.obj (.cons "id" (.str "countries-loader") .nil)) .nil }
          .nil .none .nil .nil .none .none .none .none .none .none .none)) = true
      ∧ fieldAsyncDefined (buildField [] "country"
        (.node { emptyData with
            enumV := Option.some (.cons (.str "us") .nil),
            present := .cons "asyncOptions"
              (.obj (.cons "id" (.str "countries-loader") .nil)) .nil }
          .nil .none .nil .nil .none .none .none .none .none .none .none)) = true) :=
  (C8_options_async_exclusive.1 _
    (C8_options_async_exclusive.2.2 [] "country" _))

/-- Modelled from the spec: the caller and the core exchange schema
references into a store of schema cells; a reference is an index into the
store.  Heap-level resolution reads the referenced cell, runs the pure
resolver on its schema, and returns a reference to the result: the original
reference when the referenced schema was already fully resolved (structural
sharing of the unmodified tree, no allocation), else a freshly appended
cell.  Cells are only ever appended, never overwritten in place. -/
def resolveRef (ops : CustomOps) (env : LogicEnv) (root : JSValue)
    (store : List Schema) (r : Nat) (v : JSValue) :
    Except String (List Schema × Nat) :=
  match store.get? r with
  | Option.none => .error "DanglingReference"
  | Option.some s =>
      Except.bind (resolve ops env root s v) (fun s2 =>
        if isResolvedS s then .ok (store, r)
        else .ok (store ++ [s2], store.length))

/-- C4: heap-level resolution never mutates the caller's input schema.
Every cell that existed before the call reads back unchanged afterwards; in
particular the caller's reference still yields the structurally identical
schema.  The returned reference holds exactly the resolved schema, and an
already-resolved schema is returned by its original reference with no new
allocation (structural sharing). -/
theorem C4_resolve_no_mutation (ops : CustomOps) (env : LogicEnv)
    (root : JSValue) (store : List Schema) (r : Nat) (v : JSValue)
    (st2 : List Schema) (r2 : Nat) (s : Schema)
    (h : resolveRef ops env root store r v = .ok (st2, r2))
    (hs : store.get? r = Option.some s) :
    (∀ j, j < store.length → st2.get? j = store.get? j)
    ∧ st2.get? r = Option.some s
    ∧ (∃ s2, resolve ops env root s v = .ok s2
        ∧ st2.get? r2 = Option.some s2)
    ∧ (isResolvedS s = true → st2 = store ∧ r2 = r) := by
  unfold resolveRef at h
  rw [hs] at h
  have h2 : Except.bind (resolve ops env root s v) (fun s2 =>
      if isResolvedS s then Except.ok (store, r)
      else Except.ok (store ++ [s2], store.length)) = Except.ok (st2, r2) := h
  clear h
  cases hr : resolve ops env root s v with
  | error e =>
      rw [hr] at h2
      exact absurd h2 (by simp [Except.bind])
  | ok s2 =>
      rw [hr, exceptBind_ok_eq] at h2
      by_cases hi : isResolvedS s = true
      · rw [if_pos hi] at h2
        simp only [Except.ok.injEq, Prod.mk.injEq] at h2
        obtain ⟨rfl, rfl⟩ := h2
        refine ⟨fun j _ => rfl, hs,
          ⟨s, hr.symm.trans (resolve_of_resolved ops env root s v hi), hs⟩,
          fun _ => ⟨rfl, rfl⟩⟩
      · rw [if_neg hi] at h2
        simp only [Except.ok.injEq, Prod.mk.injEq] at h2
        obtain ⟨rfl, rfl⟩ := h2
        obtain ⟨hlt, _⟩ := List.get?_eq_some.mp hs
        exact ⟨fun j hj => List.get?_append hj,
          by rw [List.get?_append hlt]; exact hs,
          ⟨s2, rfl, List.get?_concat_length store s2⟩,
          fun h2 => absurd h2 hi⟩

/-- C4, witness: the already-resolved conditional schema, held in a
one-cell store, resolves against the business value to its own reference,
leaving the store untouched. -/
theorem C4_witness :
    resolveRef [] minAgeEnv bizVal [condResolved] 0 bizVal
        = .ok ([condResolved], 0)
    ∧ [condResolved].get? 0 = Option.some condResolved
    ∧ ((∀ j, j < [condResolved].length →
          [condResolved].get? j = [condResolved].get? j)
      ∧ [condResolved].get? 0 = Option.some condResolved
      ∧ (∃ s2, resolve [] minAgeEnv bizVal condResolved bizVal = .ok s2
          ∧ [condResolved].get? 0 = Option.some s2)
      ∧ (isResolvedS condResolved = true → [condResolved] = [condResolved] ∧ 0 = 0)) :=
  ⟨rfl, rfl,
    C4_resolve_no_mutation [] minAgeEnv bizVal [condResolved] 0 bizVal
      [condResolved] 0 condResolved rfl rfl⟩

end JSF
